import Mathlib

/-!
Verification development for the bible-api repository: a shallow embedding of
the USFM parse-tree data model (src/generation/common-types.ts), the
generator pipeline exercised by the generator test, and the S3 upload
helpers (packages/helloao-cli/s3.ts), together with proofs of the spec's
claims about them.
-/

namespace BibleApi

/-! ## Data model (embedding of src/generation/common-types.ts) -/

/-- Formatted text (`FormattedText` in common-types.ts): a text run plus an
optional poetry-indent level and an optional words-of-Jesus flag. -/
structure FormattedText where
  text : String
  poem : Option Nat
  wordsOfJesus : Option Bool
deriving DecidableEq

/-- One element of a verse's content list (`ChapterVerse.content` in
common-types.ts): a plain string, formatted text, an inline heading, an
inline line break, or a footnote reference (`VerseFootnoteReference`). -/
inductive VerseContentItem where
  | text (s : String)
  | fmt (f : FormattedText)
  | inlineHeading (heading : String)
  | inlineLineBreak
  | noteRef (noteId : Nat)
deriving DecidableEq

/-- One element of a Hebrew subtitle's content list
(`ChapterHebrewSubtitle.content` in common-types.ts). -/
inductive SubtitleContentItem where
  | text (s : String)
  | fmt (f : FormattedText)
  | noteRef (noteId : Nat)
deriving DecidableEq

/-- A piece of chapter content (`ChapterContent` in common-types.ts): a
heading, a line break, a Hebrew subtitle, or a verse. -/
inductive ChapterContent where
  | heading (content : List String)
  | lineBreak
  | hebrewSubtitle (content : List SubtitleContentItem)
  | verse (number : Nat) (content : List VerseContentItem)
deriving DecidableEq

/-- The originating chapter/verse reference of a footnote
(`ChapterFootnote.reference` in common-types.ts). -/
structure FootnoteSourceRef where
  chapter : Nat
  verse : Nat
deriving DecidableEq

/-- A footnote table entry (`ChapterFootnote` in common-types.ts).  The
caller field is `some "+"` for an auto-generated caller, `none` for no
visible caller glyph, and `some s` for a verbatim literal caller. -/
structure ChapterFootnote where
  noteId : Nat
  text : String
  reference : Option FootnoteSourceRef
  caller : Option String
deriving DecidableEq

/-- The data of one chapter (`ChapterData` in common-types.ts). -/
structure ChapterData where
  number : Nat
  content : List ChapterContent
  footnotes : List ChapterFootnote
deriving DecidableEq

/-- The note ids of the footnote references inside a verse content list. -/
def vcRefIds (items : List VerseContentItem) : List Nat :=
  items.flatMap fun it =>
    match it with
    | .noteRef i => [i]
    | _ => []

/-- The note ids of the footnote references inside a Hebrew subtitle. -/
def scRefIds (items : List SubtitleContentItem) : List Nat :=
  items.flatMap fun it =>
    match it with
    | .noteRef i => [i]
    | _ => []

/-- Every footnote-reference note id occurring anywhere in a chapter content
sequence (inside verses or Hebrew subtitles). -/
def contentRefIds (cs : List ChapterContent) : List Nat :=
  cs.flatMap fun c =>
    match c with
    | .verse _ items => vcRefIds items
    | .hebrewSubtitle items => scRefIds items
    | _ => []

/-- The note ids of a chapter's footnote table, in table order. -/
def tableIds (fns : List ChapterFootnote) : List Nat :=
  fns.map (·.noteId)

/-! ## Embedding of packages/helloao-cli/s3.ts -/

/-- The object key that `S3Uploader.upload` computes for a file path: the
path with a leading slash removed, joined under the configured key prefix
when that prefix is nonempty. -/
def s3ObjectKey (keyPfx : String) (path : String) : String :=
  let p := if path.data.head? = some '/' then String.mk (path.data.drop 1) else path
  if keyPfx = "" then p else keyPfx ++ "/" ++ p

/-- Outcome of the HeadObject request in `S3Uploader.upload`: either the
object exists (with its optional stored ChecksumSHA256) or HeadObject
raised NotFound. -/
inductive HeadOutcome where
  | found (checksumSHA256 : Option String)
  | notFound
deriving DecidableEq

/-- JavaScript truthiness of the optional sha256 hash string used by the
guards in `S3Uploader.upload` (`undefined` and the empty string are falsy). -/
def jsTruthy : Option String → Bool
  | some s => !(s = "")
  | none => false

/-- The case-insensitive string comparison used by `S3Uploader.upload`
(`localeCompare` with base sensitivity, modelled as comparison after
character lowercasing; sha256 digests are plain ASCII hex). -/
def baseInsensitiveEq (a b : String) : Bool :=
  a.data.map Char.toLower == b.data.map Char.toLower

/-- Result of one `S3Uploader.upload` call: whether a PutObject command was
issued, and the boolean the method returns. -/
structure S3UploadResult where
  putIssued : Bool
  returned : Bool
deriving DecidableEq

/-- Embedding of `S3Uploader.upload` (s3.ts lines 41-93).  `head` is the
outcome the HeadObject request would have at the computed key, `hash` is
`file.sha256?.()`, and `overwrite` is the second argument.  The code sends
HeadObject only when the hash is truthy or overwrite is false; a matching
checksum returns false, a mismatch with overwrite false returns false, and
every remaining path issues PutObject and returns true. -/
def s3Upload (head : HeadOutcome) (hash : Option String) (overwrite : Bool) : S3UploadResult :=
  if jsTruthy hash || !overwrite then
    match head with
    | .found checksum =>
      if jsTruthy hash && baseInsensitiveEq (hash.getD "") (checksum.getD "") then
        { putIssued := false, returned := false }
      else if !overwrite then
        { putIssued := false, returned := false }
      else
        { putIssued := true, returned := true }
    | .notFound => { putIssued := true, returned := true }
  else
    { putIssued := true, returned := true }

/-- A character allowed in the bucket-name group of the `parseS3Url` regex
`[a-z0-9.\-]`. -/
def isBucketChar (c : Char) : Bool :=
  ('a' ≤ c && c ≤ 'z') || ('0' ≤ c && c ≤ '9') || c = '.' || c = '-'

/-- A character allowed in the object-key group of the `parseS3Url` regex:
anything except a dollar sign or a curly brace. -/
def isKeyChar (c : Char) : Bool :=
  !(c = '$' || c = '\x7b' || c = '\x7d')

/-- The characters of the literal scheme prefix matched by `parseS3Url`. -/
def s3Scheme : List Char := ['s', '3', ':', '/', '/']

/-- The part of `parseS3Url` after the scheme prefix: a nonempty maximal
run of bucket characters, then either the end of the string, or a slash
followed only by key characters; the object key is the part after that
slash (the code strips the leading slash the regex captured). -/
def splitBucketKey (rest : List Char) : Option (List Char × List Char) :=
  let bucket := rest.takeWhile isBucketChar
  let d := rest.dropWhile isBucketChar
  if bucket = [] then none
  else if d = [] then some (bucket, [])
  else if d.head? = some '/' && (d.drop 1).all isKeyChar then some (bucket, d.drop 1)
  else none

/-- Embedding of `parseS3Url` (s3.ts lines 100-115).  The regex anchors the
whole string: the literal `s3://` prefix, then the bucket/key split. -/
def parseS3Url (url : List Char) : Option (List Char × List Char) :=
  if url.take 5 = s3Scheme then splitBucketKey (url.drop 5) else none

/-- Embedding of `getHttpUrl` (s3.ts lines 121-132). -/
def getHttpUrl (url : List Char) : Option (List Char) :=
  match parseS3Url url with
  | none => none
  | some (bucketName, objectKey) =>
    if objectKey = [] then
      some ("https://".data ++ bucketName ++ ".s3.amazonaws.com".data)
    else
      some ("https://".data ++ bucketName ++ ".s3.amazonaws.com/".data ++ objectKey)

/-! ## Marker tokenizer

Modelled from the spec: the USFM tokenizer of this repository is not under
src/ (only its test and callers are), so it is reconstructed from spec
sections 4.2-4.3 and from the sample input/expected output recorded in the
generator test. -/

/-- Whitespace trimmed around USFM text runs. -/
def isUsfmSpace (c : Char) : Bool := c = ' ' || c = '\r' || c = '\t'

/-- Trim USFM whitespace from both ends of a character list. -/
def trimChars (l : List Char) : List Char :=
  ((l.dropWhile isUsfmSpace).reverse.dropWhile isUsfmSpace).reverse

/-- Split a character list into lines at newline characters. -/
def splitLinesAux (cur : List Char) : List Char → List (List Char)
  | [] => [cur.reverse]
  | '\n' :: rest => cur.reverse :: splitLinesAux [] rest
  | c :: rest => splitLinesAux (c :: cur) rest

/-- All lines of a document. -/
def splitLines (l : List Char) : List (List Char) := splitLinesAux [] l

/-- Does `l` start with the characters `pre`? -/
def startsWithChars (pre l : List Char) : Bool := l.take pre.length == pre

/-- Parse the decimal number at the head of a character list (used for
chapter and verse markers; a combined verse range keeps its first value). -/
def parseNatFromChars (l : List Char) : Option Nat :=
  let ds := l.takeWhile Char.isDigit
  if ds = [] then none
  else some (ds.foldl (fun acc c => acc * 10 + (c.toNat - 48)) 0)

/-- Tokens produced by the marker tokenizer (spec section 4.2). -/
inductive Token where
  | chapterTok (n : Nat)
  | verseTok (n : Nat)
  | headingTok (text : String)
  | lineBreakTok
  | textTok (s : String)
  | footnoteStartTok (caller : Option String)
  | footnoteEndTok
deriving DecidableEq

/-- The caller policy declared on a footnote-open marker: `+` requests an
auto-generated caller, `-` requests no caller glyph, anything else is a
literal caller used verbatim. -/
def callerOfWord (w : List Char) : Option String :=
  if w = ['-'] then none else some (String.mk w)

/-- Emit a (trimmed) text token for an accumulated character run. -/
def emitText (acc : List Char) : List Token :=
  let t := trimChars acc.reverse
  if t = [] then [] else [Token.textTok (String.mk t)]

/-- Scan the body of a verse line, splitting out footnote spans
(`\f caller body \f*`) into footnote start/end tokens around the buffered
body text.  `fuel` bounds the recursion by the input length. -/
def scanVerseAux (fuel : Nat) (acc : List Char) (rest : List Char) : List Token :=
  match fuel with
  | 0 => emitText acc
  | fuel + 1 =>
    match rest with
    | [] => emitText acc
    | '\\' :: 'f' :: '*' :: rest2 => emitText acc ++ (Token.footnoteEndTok :: scanVerseAux fuel [] rest2)
    | '\\' :: 'f' :: ' ' :: rest2 =>
      let callerWord := rest2.takeWhile (fun c => !(c = ' '))
      let rest3 := (rest2.dropWhile (fun c => !(c = ' '))).drop 1
      emitText acc ++ (Token.footnoteStartTok (callerOfWord callerWord) :: scanVerseAux fuel [] rest3)
    | c :: rest2 => scanVerseAux fuel (c :: acc) rest2

/-- Tokenize the text content of a verse line. -/
def scanVerse (body : List Char) : List Token := scanVerseAux body.length [] body

/-- Tokenize one line of a USFM document.  Chapter, verse, section-heading
and blank-line markers produce structural tokens; header markers (`\id`,
`\h`, `\toc*`, `\mt*`, `\m`, `\r`) and unrecognized markers produce no
chapter content; a line without a marker is a plain text run. -/
def tokenizeLine (line : List Char) : List Token :=
  if startsWithChars "\\c ".data line then
    match parseNatFromChars (trimChars (line.drop 3)) with
    | some n => [Token.chapterTok n]
    | none => []
  else if startsWithChars "\\v ".data line then
    let rest := line.drop 3
    match parseNatFromChars rest with
    | some n =>
      let body := (rest.dropWhile (fun c => !(c = ' '))).drop 1
      Token.verseTok n :: scanVerse body
    | none => []
  else if startsWithChars "\\s".data line then
    let body := trimChars ((line.dropWhile (fun c => !(c = ' '))).drop 1)
    if body = [] then [] else [Token.headingTok (String.mk body)]
  else if startsWithChars "\\b".data line then
    [Token.lineBreakTok]
  else if startsWithChars "\\".data line then
    []
  else
    let t := trimChars line
    if t = [] then [] else [Token.textTok (String.mk t)]

/-- The token stream of a whole raw document. -/
def tokenizeContent (content : String) : List Token :=
  (splitLines content.data).flatMap tokenizeLine

/-! ## Parse-tree builder

Modelled from the spec: the stateful single-pass builder (spec section 4.3)
is not under src/; it is reconstructed from the spec's algorithm
description and the generator test's expected parse. -/

/-- The open-footnote accumulator: the note id reserved for the footnote,
the caller policy from its opening marker, and the buffered body text. -/
structure OpenFootnote where
  id : Nat
  caller : Option String
  text : String
deriving DecidableEq

/-- The currently open verse: its number and accumulated content. -/
structure OpenVerse where
  number : Nat
  items : List VerseContentItem
deriving DecidableEq

/-- The currently open chapter: its number, accumulated content sequence
and accumulated footnote table. -/
structure OpenChapter where
  number : Nat
  content : List ChapterContent
  footnotes : List ChapterFootnote
deriving DecidableEq

/-- The live state of the parse-tree builder. -/
structure BuilderState where
  chapters : List ChapterData
  chapter : Option OpenChapter
  verse : Option OpenVerse
  footnote : Option OpenFootnote
deriving DecidableEq

/-- The builder's initial state. -/
def initState : BuilderState := ⟨[], none, none, none⟩

/-- Close the open footnote, if any: append it to the open chapter's
footnote table, associated with the current chapter/verse. -/
def closeFootnote (s : BuilderState) : BuilderState :=
  match s.footnote, s.chapter with
  | some f, some ch =>
    let ref : Option FootnoteSourceRef :=
      match s.verse with
      | some v => some ⟨ch.number, v.number⟩
      | none => none
    { s with
      chapter := some { ch with footnotes := ch.footnotes ++ [⟨f.id, f.text, ref, f.caller⟩] },
      footnote := none }
  | some _, none => { s with footnote := none }
  | none, _ => s

/-- Close the open verse, if any: append it to the open chapter's content
sequence. -/
def flushVerse (s : BuilderState) : BuilderState :=
  match s.verse, s.chapter with
  | some v, some ch =>
    { s with
      chapter := some { ch with content := ch.content ++ [ChapterContent.verse v.number v.items] },
      verse := none }
  | some _, none => { s with verse := none }
  | none, _ => s

/-- Flush the open chapter (implicitly closing any open footnote and verse)
into the list of finished chapters. -/
def flushChapter (s : BuilderState) : BuilderState :=
  let s2 := flushVerse (closeFootnote s)
  match s2.chapter with
  | some ch =>
    { s2 with chapters := s2.chapters ++ [⟨ch.number, ch.content, ch.footnotes⟩], chapter := none }
  | none => s2

/-- Open a chapter numbered 1 when none is open (recovery for a verse
marker appearing before any chapter marker). -/
def ensureChapter (s : BuilderState) : BuilderState :=
  match s.chapter with
  | some _ => s
  | none => { s with chapter := some ⟨1, [], []⟩ }

/-- Append one content node to the open chapter. -/
def appendContent (s : BuilderState) (c : ChapterContent) : BuilderState :=
  match s.chapter with
  | some ch => { s with chapter := some { ch with content := ch.content ++ [c] } }
  | none => s

/-- Join a new text run onto a footnote body buffer. -/
def appendBody (a t : String) : String :=
  if a = "" then t else a ++ " " ++ t

/-- One step of the parse-tree builder (spec section 4.3): chapter and
verse markers flush the previous structure; heading and line-break markers
go straight into the chapter sequence; text goes to the open footnote,
else the open verse; a footnote open reserves the next sequential note id
and drops a reference into the open verse; a footnote close (or chapter
end) appends the buffered footnote to the chapter's table. -/
def step (s : BuilderState) : Token → BuilderState
  | .chapterTok n =>
    let s2 := flushChapter s
    { s2 with chapter := some ⟨n, [], []⟩ }
  | .verseTok n =>
    let s2 := flushVerse (ensureChapter s)
    { s2 with verse := some ⟨n, []⟩ }
  | .headingTok t =>
    match s.chapter with
    | some _ => appendContent (flushVerse s) (ChapterContent.heading [t])
    | none => s
  | .lineBreakTok =>
    match s.chapter with
    | some _ => appendContent (flushVerse s) ChapterContent.lineBreak
    | none => s
  | .textTok t =>
    match s.footnote with
    | some f => { s with footnote := some { f with text := appendBody f.text t } }
    | none =>
      match s.verse with
      | some v => { s with verse := some { v with items := v.items ++ [VerseContentItem.text t] } }
      | none => s
  | .footnoteStartTok c =>
    match s.chapter with
    | none => s
    | some _ =>
      let s2 := closeFootnote s
      match s2.chapter with
      | some ch =>
        let fid := ch.footnotes.length + 1
        let s3 := { s2 with footnote := some ⟨fid, c, ""⟩ }
        match s3.verse with
        | some v => { s3 with verse := some { v with items := v.items ++ [VerseContentItem.noteRef fid] } }
        | none => s3
      | none => s2
  | .footnoteEndTok => closeFootnote s

/-- Run the builder over a token stream. -/
def runTokens (s : BuilderState) : List Token → BuilderState
  | [] => s
  | t :: ts => runTokens (step s t) ts

/-- The chapters parsed from a token stream (end of input flushes the last
open chapter, verse and footnote). -/
def buildChapters (tokens : List Token) : List ChapterData :=
  (flushChapter (runTokens initState tokens)).chapters

/-! ## Book catalog and book parsing -/

/-- Modelled from the spec: the book catalog (spec section 4.1) maps a
canonical book id to its common name and canonical order index.  The full
catalog file is not under src/; this fragment covers the canon prefix used
by the sample translation. -/
def bookIdMap : List (String × String × Nat) :=
  [("GEN", "Genesis", 1), ("EXO", "Exodus", 2), ("LEV", "Leviticus", 3),
   ("NUM", "Numbers", 4), ("DEU", "Deuteronomy", 5)]

/-- Catalog lookup: common name and canonical order of a book id. -/
def lookupBook (code : String) : Option (String × Nat) :=
  (bookIdMap.find? (fun e => e.1 == code)).map (·.2)

/-- The book identifier declared by the document's `\id` line. -/
def findBookIdTag (lines : List (List Char)) : Option (List Char) :=
  match lines.find? (fun l => startsWithChars "\\id ".data l) with
  | some l => some ((l.drop 4).takeWhile (fun c => !(c = ' ')))
  | none => none

/-- A parsed book: canonical id, common name, canonical order and parsed
chapters. -/
structure ParsedBook where
  id : String
  commonName : String
  bookOrder : Nat
  chapters : List ChapterData
deriving DecidableEq

/-- Parse one raw USFM document into a book (spec sections 4.1-4.3): the
`\id` line names the book, which must resolve in the catalog; the marker
token stream is folded into chapters. -/
def parseBook (content : String) : Option ParsedBook :=
  let lines := splitLines content.data
  match findBookIdTag lines with
  | none => none
  | some codeChars =>
    let code := String.mk codeChars
    match lookupBook code with
    | none => none
    | some (cn, ord) => some ⟨code, cn, ord, buildChapters (lines.flatMap tokenizeLine)⟩

/-! ## Generator

Modelled from the spec: the `generate` function itself is not under src/
(only its test is); the document shapes, paths and ordering below follow
spec sections 4.4 and 6 and the file tree asserted by the generator test.
Per that test, `nextChapterLink` is computed within a book only. -/

/-- The translation metadata attached to each input file.  The metadata
constructed by the generator test omits `englishName` and `direction`
(which `InputTranslationMetadata` in common-types.ts declares), so both
are optional here. -/
structure InputTranslationMetadata where
  id : String
  name : String
  shortName : Option String
  englishName : Option String
  website : String
  licenseUrl : String
  language : String
  direction : Option String
deriving DecidableEq

/-- One input file handed to the generator (`InputFile` in common-types.ts,
restricted to the fields the pipeline reads: metadata and raw content). -/
structure InputFile where
  metadata : InputTranslationMetadata
  content : String
deriving DecidableEq

/-- A translation entry of the generated documents: the metadata plus the
derived `availableFormats` list and the link to the translation's book
index. -/
structure ApiTranslation where
  id : String
  name : String
  shortName : Option String
  englishName : Option String
  website : String
  licenseUrl : String
  language : String
  direction : Option String
  availableFormats : List String
  listOfBooksApiLink : String
deriving DecidableEq

/-- A book entry of the per-translation book index. -/
structure ApiBook where
  id : String
  commonName : String
  numberOfChapters : Nat
  firstChapterApiLink : String
deriving DecidableEq

/-- The body of `/bible/available_translations`. -/
structure AvailableTranslationsDoc where
  translations : List ApiTranslation
deriving DecidableEq

/-- The body of a per-translation book index document. -/
structure BooksDoc where
  translation : ApiTranslation
  books : List ApiBook
deriving DecidableEq

/-- The body of a per-chapter document. -/
structure ChapterDoc where
  translation : ApiTranslation
  book : ApiBook
  nextChapterLink : Option String
  chapter : ChapterData
deriving DecidableEq

/-- The JSON-serializable body of an output file. -/
inductive ApiContent where
  | availableTranslations (d : AvailableTranslationsDoc)
  | books (d : BooksDoc)
  | chapter (d : ChapterDoc)
deriving DecidableEq

/-- An output document (`OutputFile` in common-types.ts): a path, a body,
and the mergeable flag. -/
structure OutputFile where
  path : String
  content : ApiContent
  mergable : Bool
deriving DecidableEq

/-- Keep the first occurrence of each translation id (`seen` holds the ids
already kept). -/
def dedupById (seen : List String) : List InputTranslationMetadata → List InputTranslationMetadata
  | [] => []
  | m :: rest =>
    if m.id ∈ seen then dedupById seen rest
    else m :: dedupById (m.id :: seen) rest

/-- The distinct translations of a run, in first-occurrence order. -/
def translationsOf (files : List InputFile) : List InputTranslationMetadata :=
  dedupById [] (files.map (·.metadata))

/-- The translation entry emitted for one translation. -/
def apiTranslation (t : InputTranslationMetadata) : ApiTranslation :=
  ⟨t.id, t.name, t.shortName, t.englishName, t.website, t.licenseUrl, t.language, t.direction,
   ["json"], "/bible/" ++ t.id ++ "/books"⟩

/-- The book segment of a chapter document path: the book's common name or
its canonical id, selected by the generation-time configuration flag. -/
def bookSegment (useCommonName : Bool) (b : ParsedBook) : String :=
  if useCommonName then b.commonName else b.id

/-- The path of one chapter document. -/
def chapterPath (useCommonName : Bool) (tid : String) (b : ParsedBook) (n : Nat) : String :=
  "/bible/" ++ tid ++ "/" ++ bookSegment useCommonName b ++ "/" ++ Nat.repr n ++ ".json"

/-- The number of the first parsed chapter of a book. -/
def firstChapterNumber (b : ParsedBook) : Nat :=
  match b.chapters with
  | c :: _ => c.number
  | [] => 1

/-- The book entry emitted for one book. -/
def apiBook (useCommonName : Bool) (tid : String) (b : ParsedBook) : ApiBook :=
  ⟨b.id, b.commonName, b.chapters.length, chapterPath useCommonName tid b (firstChapterNumber b)⟩

/-- The next-chapter link of a chapter document, given the chapters that
follow it in the same book: null at the end of the book. -/
def nextLink (useCommonName : Bool) (tid : String) (b : ParsedBook) : List ChapterData → Option String
  | [] => none
  | c2 :: _ => some (chapterPath useCommonName tid b c2.number)

/-- The (path, body) pairs of the chapter documents of one book. -/
def chapterDocList (useCommonName : Bool) (t : InputTranslationMetadata) (b : ParsedBook) :
    List ChapterData → List (String × ChapterDoc)
  | [] => []
  | c :: rest =>
    (chapterPath useCommonName t.id b c.number,
      ⟨apiTranslation t, apiBook useCommonName t.id b, nextLink useCommonName t.id b rest, c⟩)
      :: chapterDocList useCommonName t b rest

/-- Insert a book into a list sorted by canonical order. -/
def insertByOrder (b : ParsedBook) : List ParsedBook → List ParsedBook
  | [] => [b]
  | x :: xs => if b.bookOrder ≤ x.bookOrder then b :: x :: xs else x :: insertByOrder b xs

/-- Sort books into canonical order. -/
def sortBooks (bs : List ParsedBook) : List ParsedBook := bs.foldr insertByOrder []

/-- The parsed books of one translation, in canonical order. -/
def parsedBooksFor (t : InputTranslationMetadata) (files : List InputFile) : List ParsedBook :=
  sortBooks ((files.filter (fun f => f.metadata.id == t.id)).filterMap (fun f => parseBook f.content))

/-- The body of `/bible/available_translations` for a run. -/
def availableTranslationsDoc (files : List InputFile) : AvailableTranslationsDoc :=
  ⟨(translationsOf files).map apiTranslation⟩

/-- All documents of one translation: its book index followed by its
chapter documents in canonical book order. -/
def translationDocs (cfg : Bool) (t : InputTranslationMetadata) (books : List ParsedBook) :
    List OutputFile :=
  ⟨"/bible/" ++ t.id ++ "/books",
    ApiContent.books ⟨apiTranslation t, books.map (apiBook cfg t.id)⟩, false⟩
    :: books.flatMap
        (fun b => (chapterDocList cfg t b b.chapters).map
          (fun p => ⟨p.1, ApiContent.chapter p.2, false⟩))

/-- The generator: the mergeable cross-translation index followed by every
translation's documents. -/
def generate (cfg : Bool) (files : List InputFile) : List OutputFile :=
  ⟨"/bible/available_translations",
    ApiContent.availableTranslations (availableTranslationsDoc files), true⟩
    :: (translationsOf files).flatMap (fun t => translationDocs cfg t (parsedBooksFor t files))

/-- Look up the body of the generated document at a path. -/
def lookupPath (files : List OutputFile) (p : String) : Option ApiContent :=
  (files.find? (fun f => f.path == p)).map (·.content)

/-- The next-chapter link of a document body, when it is a chapter
document. -/
def chapterNextLink : ApiContent → Option (Option String)
  | .chapter d => some d.nextChapterLink
  | _ => none

/-! ## Merging of the cross-translation index

Modelled from the spec: the index document is mergeable; the merge is
keyed by translation id and last-write-wins on duplicate ids (spec
sections 3 and 4.4). -/

/-- Insert one translation entry into an index: replace the entry with the
same id when present (last write wins), otherwise append. -/
def upsertTranslation (acc : List ApiTranslation) (e : ApiTranslation) : List ApiTranslation :=
  if acc.any (fun x => x.id == e.id) then
    acc.map (fun x => if x.id == e.id then e else x)
  else acc ++ [e]

/-- Merge two `available_translations` documents. -/
def mergeAvailableTranslations (a b : AvailableTranslationsDoc) : AvailableTranslationsDoc :=
  ⟨List.foldl upsertTranslation a.translations b.translations⟩

/-! ## Footnote caller rendering

Modelled from the spec: the renderer is not under src/; spec section 3
gives the three caller policies (auto-generated symbol for `+`, no visible
glyph for null, literal text verbatim). -/

/-- The caller symbol auto-assigned to the n-th auto-caller footnote at
render time. -/
def autoCallerSymbol (n : Nat) : String :=
  String.mk [Char.ofNat (97 + n % 26)]

/-- A rendered footnote caller: an auto-assigned symbol, no glyph, or a
verbatim literal. -/
inductive RenderedCaller where
  | auto (symbol : String)
  | noGlyph
  | verbatim (s : String)
deriving DecidableEq

/-- Render a footnote caller specification. -/
def renderCaller (caller : Option String) (autoIndex : Nat) : RenderedCaller :=
  match caller with
  | some s => if s = "+" then RenderedCaller.auto (autoCallerSymbol autoIndex) else RenderedCaller.verbatim s
  | none => RenderedCaller.noGlyph

/-- The callers of a footnote table, in order. -/
def footnoteCallers (fns : List ChapterFootnote) : List (Option String) :=
  fns.map (·.caller)

/-- Every caller stored anywhere in a builder state. -/
def stateCallers (s : BuilderState) : List (Option String) :=
  s.chapters.flatMap (fun c => footnoteCallers c.footnotes)
    ++ (match s.chapter with
        | some ch => footnoteCallers ch.footnotes
        | none => [])
    ++ (match s.footnote with
        | some f => [f.caller]
        | none => [])

/-- The caller carried by a token (nonempty only for footnote opens). -/
def tokCallers : Token → List (Option String)
  | .footnoteStartTok c => [c]
  | _ => []

/-! ## The concrete BSB sample run

Modelled from the spec: the raw BSB sample files are not under src/; these
fragments reproduce the first lines of the Genesis and Exodus USFM files
as recorded in the generator test and the spec's concrete scenario. -/

/-- The translation metadata the generator test constructs (no
`englishName`, no `direction`). -/
def bsbMeta : InputTranslationMetadata :=
  ⟨"bsb", "Berean Standard Bible", some "BSB", none,
   "https://berean.bible", "https://berean.bible/terms.htm", "en", none⟩

/-- The first 13 lines of the BSB Genesis USFM file. -/
def genesisUsfm : String :=
  "\\id GEN - Berean Study Bible\n\\h Genesis\n\\toc1 Genesis\n\\mt1 Genesis\n\\c 1\n\\s1 The Creation\n\\r (John 1:1-5; Hebrews 11:1-3)\n\\b\n\\m \n\\v 1 In the beginning God created the heavens and the earth. \n\\b\n\\m \n\\v 2 Now the earth was formless and void, and darkness was over the surface of the deep. And the Spirit of God was hovering over the surface of the waters. "

/-- The first 14 lines of the BSB Exodus USFM file. -/
def exodusUsfm : String :=
  "\\id EXO - Berean Study Bible\n\\h Exodus\n\\toc1 Exodus\n\\toc2 Exodus\n\\mt1 Exodus\n\\c 1\n\\s1 The Israelites Multiply in Egypt\n\\r (Genesis 46:8-27)\n\\b\n\\m \n\\v 1 These are the names of the sons of Israel who went to Egypt with Jacob, each with his family: \n\\b\n\\m \n\\v 2 Reuben, Simeon, Levi, and Judah; "

/-- The generator test's input files. -/
def bsbInputFiles : List InputFile :=
  [⟨bsbMeta, genesisUsfm⟩, ⟨bsbMeta, exodusUsfm⟩]

/-- The translation entry both expected documents carry. -/
def bsbApiTranslation : ApiTranslation :=
  ⟨"bsb", "Berean Standard Bible", some "BSB", none,
   "https://berean.bible", "https://berean.bible/terms.htm", "en", none,
   ["json"], "/bible/bsb/books"⟩

/-- The expected Genesis book entry. -/
def genesisApiBook : ApiBook := ⟨"GEN", "Genesis", 1, "/bible/bsb/Genesis/1.json"⟩

/-- The expected Exodus book entry. -/
def exodusApiBook : ApiBook := ⟨"EXO", "Exodus", 1, "/bible/bsb/Exodus/1.json"⟩

/-- The expected parsed Genesis chapter 1. -/
def genesisChapterOne : ChapterData :=
  ⟨1,
   [ChapterContent.heading ["The Creation"],
    ChapterContent.lineBreak,
    ChapterContent.verse 1
      [VerseContentItem.text "In the beginning God created the heavens and the earth."],
    ChapterContent.lineBreak,
    ChapterContent.verse 2
      [VerseContentItem.text "Now the earth was formless and void, and darkness was over the surface of the deep. And the Spirit of God was hovering over the surface of the waters."]],
   []⟩

/-- The expected parsed Exodus chapter 1. -/
def exodusChapterOne : ChapterData :=
  ⟨1,
   [ChapterContent.heading ["The Israelites Multiply in Egypt"],
    ChapterContent.lineBreak,
    ChapterContent.verse 1
      [VerseContentItem.text "These are the names of the sons of Israel who went to Egypt with Jacob, each with his family:"],
    ChapterContent.lineBreak,
    ChapterContent.verse 2
      [VerseContentItem.text "Reuben, Simeon, Levi, and Judah;"]],
   []⟩

/-- The full document tree the generator test expects. -/
def bsbExpectedOutput : List OutputFile :=
  [⟨"/bible/available_translations",
    ApiContent.availableTranslations ⟨[bsbApiTranslation]⟩, true⟩,
   ⟨"/bible/bsb/books",
    ApiContent.books ⟨bsbApiTranslation, [genesisApiBook, exodusApiBook]⟩, false⟩,
   ⟨"/bible/bsb/Genesis/1.json",
    ApiContent.chapter ⟨bsbApiTranslation, genesisApiBook, none, genesisChapterOne⟩, false⟩,
   ⟨"/bible/bsb/Exodus/1.json",
    ApiContent.chapter ⟨bsbApiTranslation, exodusApiBook, none, exodusChapterOne⟩, false⟩]

/-! ## Invariants and auxiliary definitions for the proofs -/

/-- A chapter satisfies the footnote invariant: every footnote reference in
its content has exactly one matching entry in its footnote table. -/
def ChapterOk (c : ChapterData) : Prop :=
  ∀ i ∈ contentRefIds c.content, (c.footnotes.filter (fun fn => fn.noteId == i)).length = 1

/-- The content of the open verse of a builder state ([] when none). -/
def vItems (s : BuilderState) : List VerseContentItem :=
  match s.verse with
  | some v => v.items
  | none => []

/-- The footnote table of the open chapter of a builder state. -/
def chTable (s : BuilderState) : List ChapterFootnote :=
  match s.chapter with
  | some ch => ch.footnotes
  | none => []

/-- Every footnote-reference id held by the open chapter (its content plus
the open verse). -/
def chRefs (s : BuilderState) : List Nat :=
  (match s.chapter with
   | some ch => contentRefIds ch.content
   | none => []) ++ vcRefIds (vItems s)

/-- The parse-tree builder invariant: finished chapters satisfy the
footnote invariant; a missing chapter means no open verse or footnote; the
open chapter's note ids are exactly 1..n in order; an open footnote holds
the next sequential id; and every reference id in the open chapter resolves
to the table or to the open footnote. -/
structure Inv (s : BuilderState) : Prop where
  chaptersOk : ∀ c ∈ s.chapters, ChapterOk c
  noChapter : s.chapter = none → s.verse = none ∧ s.footnote = none
  idsSeq : tableIds (chTable s) = List.range' 1 (chTable s).length
  pendingId : ∀ f, s.footnote = some f → f.id = (chTable s).length + 1
  refsResolve : ∀ i ∈ chRefs s,
    i ∈ tableIds (chTable s) ∨ (∃ f, s.footnote = some f ∧ i = f.id)

/-- The translation ids of a metadata list. -/
def metaIds (l : List InputTranslationMetadata) : List String := l.map (·.id)

/-- The translation ids of an index entry list. -/
def apiIds (l : List ApiTranslation) : List String := l.map (·.id)

/-! ### Concrete values used by the witnesses -/

/-- A second translation's metadata, disjoint from bsb. -/
def webMeta : InputTranslationMetadata :=
  ⟨"web", "World English Bible", none, some "World English Bible",
   "https://worldenglish.bible", "https://worldenglish.bible/license", "en", some "ltr"⟩

/-- A two-chapter book used to witness the within-book next links. -/
def wBook : ParsedBook := ⟨"GEN", "Genesis", 1, [⟨1, [], []⟩, ⟨2, [], []⟩]⟩

/-- The chapters of `wBook`. -/
def wChapters : List ChapterData := [⟨1, [], []⟩, ⟨2, [], []⟩]

/-- The first chapter document of `wBook`. -/
def wDoc0 : String × ChapterDoc :=
  ("/bible/bsb/Genesis/1.json",
   ⟨apiTranslation bsbMeta, apiBook true "bsb" wBook, some "/bible/bsb/Genesis/2.json",
    ⟨1, [], []⟩⟩)

/-- A tiny USFM document with one footnote. -/
def fnUsfm : String :=
  "\\id GEN - Footnote sample\n\\c 1\n\\v 1 Hello \\f + a note \\f* world"

/-- The chapter parsed from `fnUsfm`. -/
def fnChapter : ChapterData :=
  ⟨1,
   [ChapterContent.verse 1
     [VerseContentItem.text "Hello", VerseContentItem.noteRef 1, VerseContentItem.text "world"]],
   [⟨1, "a note", some ⟨1, 1⟩, some "+"⟩]⟩

/-- The book parsed from `fnUsfm`. -/
def fnBook : ParsedBook := ⟨"GEN", "Genesis", 1, [fnChapter]⟩

/-- The chapter document generated from `fnUsfm`. -/
def fnChapterDoc : ChapterDoc :=
  ⟨apiTranslation bsbMeta, apiBook true "bsb" fnBook, none, fnChapter⟩

/-- The chapter output file generated from `fnUsfm`. -/
def fnOutputFile : OutputFile :=
  ⟨"/bible/bsb/Genesis/1.json", ApiContent.chapter fnChapterDoc, false⟩

/-- The input files of the footnote sample run. -/
def fnInputFiles : List InputFile := [⟨bsbMeta, fnUsfm⟩]

/-- A token stream opening one auto-caller footnote. -/
def w8Tokens : List Token :=
  [Token.chapterTok 1, Token.verseTok 1,
   Token.footnoteStartTok (some "+"), Token.footnoteEndTok]

/-- The chapter built from `w8Tokens`. -/
def w8Chapter : ChapterData :=
  ⟨1, [ChapterContent.verse 1 [VerseContentItem.noteRef 1]],
   [⟨1, "", some ⟨1, 1⟩, some "+"⟩]⟩

/-- The footnote of `w8Chapter`. -/
def w8Footnote : ChapterFootnote := ⟨1, "", some ⟨1, 1⟩, some "+"⟩

/-- The book-index output file of the BSB sample run. -/
def bsbBooksFile : OutputFile :=
  ⟨"/bible/bsb/books",
   ApiContent.books ⟨bsbApiTranslation, [genesisApiBook, exodusApiBook]⟩, false⟩

/-! ## Theorems -/

set_option maxRecDepth 200000

/-- C1: For the concrete BSB input (the Genesis fragment with chapter-1
heading "The Creation", a reference line and verses 1-2, and the Exodus
fragment with chapter-1 heading "The Israelites Multiply in Egypt" and
verses 1-2, both tagged with the bsb metadata), `generate` produces exactly
four documents: the available_translations index with availableFormats
["json"] and listOfBooksApiLink "/bible/bsb/books", the book list with
Genesis (1 chapter) then Exodus (1 chapter), and the two chapter documents
each carrying the translation, the book summary and content
[heading, line_break, verse 1, line_break, verse 2] with empty
footnotes. -/
theorem generate_bsb_sample_file_tree :
    generate true bsbInputFiles = bsbExpectedOutput := by
  decide

/-- C2 counterexample: in the concrete BSB run, Genesis is not the
canonically last book (Exodus follows), yet the last chapter of Genesis has
`nextChapterLink` null rather than the path of Exodus chapter 1 — exactly
as the generator test asserts. -/
theorem next_chapter_link_cross_book_counterexample :
    (lookupPath (generate true bsbInputFiles) "/bible/bsb/Genesis/1.json").bind chapterNextLink
        = some none
      ∧ ¬((lookupPath (generate true bsbInputFiles) "/bible/bsb/Genesis/1.json").bind
            chapterNextLink = some (some "/bible/bsb/Exodus/1.json")) := by
  decide

/-- C5 counterexample: the generator test's run uses translation metadata
with no `englishName` and no `direction` (fields the claim lists as
required), yet the run is not aborted: it yields four output documents,
not zero. -/
theorem missing_metadata_fields_counterexample :
    bsbMeta.englishName = none ∧ bsbMeta.direction = none
      ∧ (generate true bsbInputFiles).length = 4 := by
  refine ⟨rfl, rfl, ?_⟩
  decide

/-- C5 amended: the generator does not treat translation metadata with a
missing `englishName` or `direction` as fatal — such a run still yields
output documents, beginning with the available_translations index. -/
theorem generate_ignores_missing_optional_metadata :
    ∀ (cfg : Bool) (files : List InputFile),
      (∃ f ∈ files, f.metadata.englishName = none ∨ f.metadata.direction = none) →
      (generate cfg files).head?
          = some ⟨"/bible/available_translations",
                  ApiContent.availableTranslations (availableTranslationsDoc files), true⟩
        ∧ generate cfg files ≠ [] := by
  intro cfg files _
  exact ⟨rfl, by simp [generate]⟩

/-- C5 amended, witness at the concrete BSB run. -/
theorem generate_ignores_missing_optional_metadata_witness :
    (generate true bsbInputFiles).head?
        = some ⟨"/bible/available_translations",
                ApiContent.availableTranslations (availableTranslationsDoc bsbInputFiles), true⟩
      ∧ generate true bsbInputFiles ≠ [] :=
  generate_ignores_missing_optional_metadata true bsbInputFiles
    ⟨⟨bsbMeta, genesisUsfm⟩, by decide⟩

/-- C7: when the file carries a (nonempty) sha256 hash and an object exists
at the computed key whose stored ChecksumSHA256 equals that hash under the
case-insensitive comparison, `S3Uploader.upload` issues no PutObject and
returns false, whatever the overwrite flag. -/
theorem s3_upload_checksum_match_skips :
    ∀ (h c : String) (ov : Bool), ¬(h = "") → baseInsensitiveEq h c = true →
      s3Upload (HeadOutcome.found (some c)) (some h) ov
        = { putIssued := false, returned := false } := by
  intro h c ov hne hEq
  simp [s3Upload, jsTruthy, hne, hEq]

/-- C7 witness: a concrete checksum match differing only in case is
skipped. -/
theorem s3_upload_checksum_match_skips_witness :
    s3Upload (HeadOutcome.found (some "AB12CD")) (some "ab12cd") true
      = { putIssued := false, returned := false } :=
  s3_upload_checksum_match_skips "ab12cd" "AB12CD" true (by decide) (by decide)

/-- C9: with overwrite false, an existing object whose stored checksum does
not match the file's hash (or a file with no truthy hash) is left alone and
upload returns false; when HeadObject reports NotFound, upload writes the
object and returns true regardless of the overwrite flag. -/
theorem s3_upload_no_overwrite_and_notfound :
    (∀ (hash : Option String) (c : Option String),
        ¬(jsTruthy hash = true ∧ baseInsensitiveEq (hash.getD "") (c.getD "") = true) →
        s3Upload (HeadOutcome.found c) hash false
          = { putIssued := false, returned := false })
      ∧ (∀ (hash : Option String) (ov : Bool),
          s3Upload HeadOutcome.notFound hash ov = { putIssued := true, returned := true }) := by
  constructor
  · intro hash c hne
    cases ht : jsTruthy hash with
    | false => simp [s3Upload, ht]
    | true =>
      cases hm : baseInsensitiveEq (hash.getD "") (c.getD "") with
      | false => simp [s3Upload, ht, hm]
      | true => exact absurd ⟨ht, hm⟩ hne
  · intro hash ov
    cases hg : (jsTruthy hash || !ov) <;> simp [s3Upload, hg]

/-- C9 witness: a concrete mismatched checksum with overwrite false is not
written; a concrete NotFound is written. -/
theorem s3_upload_no_overwrite_and_notfound_witness :
    s3Upload (HeadOutcome.found (some "aaa")) (some "bbb") false
        = { putIssued := false, returned := false }
      ∧ s3Upload HeadOutcome.notFound none true = { putIssued := true, returned := true } :=
  ⟨s3_upload_no_overwrite_and_notfound.1 (some "bbb") (some "aaa") (by decide),
   s3_upload_no_overwrite_and_notfound.2 none true⟩

/-! ### Helper lemmas about takeWhile/dropWhile -/

theorem takeWhile_of_all {α : Type} (p : α → Bool) (l : List α) (h : ∀ x ∈ l, p x = true) :
    l.takeWhile p = l := by
  induction l with
  | nil => rfl
  | cons a t ih =>
    have ha : p a = true := h a (by simp)
    have ht : t.takeWhile p = t := ih (fun x hx => h x (by simp [hx]))
    simp [List.takeWhile_cons, ha, ht]

theorem dropWhile_of_all {α : Type} (p : α → Bool) (l : List α) (h : ∀ x ∈ l, p x = true) :
    l.dropWhile p = [] := by
  induction l with
  | nil => rfl
  | cons a t ih =>
    have ha : p a = true := h a (by simp)
    have ht : t.dropWhile p = [] := ih (fun x hx => h x (by simp [hx]))
    simp [List.dropWhile_cons, ha, ht]

theorem takeWhile_append_stop {α : Type} (p : α → Bool) (l1 : List α) (c : α) (l2 : List α)
    (h1 : ∀ x ∈ l1, p x = true) (hc : p c = false) :
    (l1 ++ c :: l2).takeWhile p = l1 := by
  induction l1 with
  | nil => simp [List.takeWhile_cons, hc]
  | cons a t ih =>
    have ha : p a = true := h1 a (by simp)
    have ht := ih (fun x hx => h1 x (by simp [hx]))
    simp [List.takeWhile_cons, ha, ht]

theorem dropWhile_append_stop {α : Type} (p : α → Bool) (l1 : List α) (c : α) (l2 : List α)
    (h1 : ∀ x ∈ l1, p x = true) (hc : p c = false) :
    (l1 ++ c :: l2).dropWhile p = c :: l2 := by
  induction l1 with
  | nil => simp [List.dropWhile_cons, hc]
  | cons a t ih =>
    have ha : p a = true := h1 a (by simp)
    have ht := ih (fun x hx => h1 x (by simp [hx]))
    simp [List.dropWhile_cons, ha, ht]

/-- Characterization of the bucket/key split after the scheme prefix. -/
theorem splitBucketKey_eq_some_iff (rest b k : List Char) :
    splitBucketKey rest = some (b, k) ↔
      (b ≠ [] ∧ (∀ c ∈ b, isBucketChar c = true) ∧ (∀ c ∈ k, isKeyChar c = true) ∧
        (rest = b ∧ k = [] ∨ rest = b ++ '/' :: k)) := by
  constructor
  · intro h
    simp only [splitBucketKey] at h
    by_cases hb : rest.takeWhile isBucketChar = []
    · simp [hb] at h
    · rw [if_neg hb] at h
      by_cases hd : rest.dropWhile isBucketChar = []
      · rw [if_pos hd, Option.some.injEq, Prod.mk.injEq] at h
        obtain ⟨hb2, hk2⟩ := h
        subst hb2
        refine ⟨hb, fun c hc => List.mem_takeWhile_imp hc, ?_, ?_⟩
        · intro c hc
          rw [← hk2] at hc
          simp at hc
        · left
          refine ⟨?_, hk2.symm⟩
          conv_lhs => rw [← List.takeWhile_append_dropWhile (p := isBucketChar) (l := rest)]
          rw [hd]
          simp
      · rw [if_neg hd] at h
        by_cases hc : ((rest.dropWhile isBucketChar).head? = some '/'
            && ((rest.dropWhile isBucketChar).drop 1).all isKeyChar) = true
        · rw [if_pos hc, Option.some.injEq, Prod.mk.injEq] at h
          obtain ⟨hb2, hk2⟩ := h
          subst hb2
          rw [Bool.and_eq_true] at hc
          obtain ⟨hhead, hall⟩ := hc
          cases hD : rest.dropWhile isBucketChar with
          | nil => exact absurd hD hd
          | cons c0 tl =>
            rw [hD] at hhead hk2
            simp at hhead
            subst hhead
            simp at hk2
            refine ⟨hb, fun c hc => List.mem_takeWhile_imp hc, ?_, ?_⟩
            · intro c hcmem
              rw [hD] at hall
              simp at hall
              rw [← hk2] at hcmem
              exact hall c hcmem
            · right
              conv_lhs => rw [← List.takeWhile_append_dropWhile (p := isBucketChar) (l := rest)]
              rw [hD, hk2]
        · rw [if_neg hc] at h
          exact absurd h (by simp)
  · intro ⟨h1, h2, h3, h4⟩
    rcases h4 with ⟨hrest, hk⟩ | hrest
    · subst hrest
      subst hk
      simp only [splitBucketKey]
      rw [takeWhile_of_all _ _ h2, dropWhile_of_all _ _ h2]
      simp [h1]
    · subst hrest
      have ht := takeWhile_append_stop isBucketChar b '/' k h2 (by decide)
      have hd := dropWhile_append_stop isBucketChar b '/' k h2 (by decide)
      have hall : k.all isKeyChar = true := List.all_eq_true.mpr h3
      simp only [splitBucketKey]
      rw [ht, hd]
      simp [h1, hall]

/-- C10: `parseS3Url` succeeds exactly on strings of the form
`s3://bucket` or `s3://bucket/key` (nonempty bucket of bucket characters,
key of key characters, the object key stripped of the separating slash and
empty when no key segment is present) and returns undefined otherwise;
`getHttpUrl` is undefined exactly when `parseS3Url` is, and otherwise
returns `https://bucket.s3.amazonaws.com` followed by `/key` when the key
is nonempty. -/
theorem parseS3Url_getHttpUrl_spec :
    ∀ (url b k : List Char),
      (parseS3Url url = some (b, k) ↔
        (b ≠ [] ∧ (∀ c ∈ b, isBucketChar c = true) ∧ (∀ c ∈ k, isKeyChar c = true) ∧
          (url = s3Scheme ++ b ∧ k = [] ∨ url = s3Scheme ++ b ++ '/' :: k)))
      ∧ (getHttpUrl url = none ↔ parseS3Url url = none)
      ∧ (parseS3Url url = some (b, k) → k ≠ [] →
          getHttpUrl url = some ("https://".data ++ b ++ ".s3.amazonaws.com/".data ++ k))
      ∧ (parseS3Url url = some (b, k) → k = [] →
          getHttpUrl url = some ("https://".data ++ b ++ ".s3.amazonaws.com".data)) := by
  intro url b k
  refine ⟨?_, ?_, ?_, ?_⟩
  · constructor
    · intro h
      unfold parseS3Url at h
      by_cases h5 : url.take 5 = s3Scheme
      · rw [if_pos h5] at h
        obtain ⟨h1, h2, h3, h4⟩ := (splitBucketKey_eq_some_iff _ b k).mp h
        have hurl : url = s3Scheme ++ url.drop 5 := by
          conv_lhs => rw [← List.take_append_drop 5 url]
          rw [h5]
        refine ⟨h1, h2, h3, ?_⟩
        rcases h4 with ⟨hr, hk⟩ | hr
        · left
          exact ⟨by rw [hurl, hr], hk⟩
        · right
          rw [hurl, hr, List.append_assoc]
      · rw [if_neg h5] at h
        exact absurd h (by simp)
    · intro ⟨h1, h2, h3, h4⟩
      have hlen : s3Scheme.length = 5 := rfl
      rcases h4 with ⟨hrest, hk⟩ | hrest
      · subst hrest
        unfold parseS3Url
        rw [if_pos (List.take_left' hlen), List.drop_left' hlen]
        exact (splitBucketKey_eq_some_iff b b k).mpr ⟨h1, h2, h3, Or.inl ⟨rfl, hk⟩⟩
      · subst hrest
        unfold parseS3Url
        rw [List.append_assoc, List.take_left' hlen, List.drop_left' hlen, if_pos rfl]
        exact (splitBucketKey_eq_some_iff _ b k).mpr ⟨h1, h2, h3, Or.inr rfl⟩
  · cases hp : parseS3Url url with
    | none => simp [getHttpUrl, hp]
    | some bk =>
      simp [getHttpUrl, hp]
      split <;> simp
  · intro h hk
    simp [getHttpUrl, h, hk]
  · intro h hk
    simp [getHttpUrl, h, hk]

/-- C10 witness: a concrete S3 URL parses to its bucket and key, and its
HTTP URL is the bucket host followed by the key. -/
theorem parseS3Url_getHttpUrl_spec_witness :
    parseS3Url "s3://my-bucket/a/b.json".data = some ("my-bucket".data, "a/b.json".data)
      ∧ getHttpUrl "s3://my-bucket/a/b.json".data
          = some ("https://".data ++ "my-bucket".data ++ ".s3.amazonaws.com/".data ++ "a/b.json".data) :=
  have h := parseS3Url_getHttpUrl_spec "s3://my-bucket/a/b.json".data "my-bucket".data "a/b.json".data
  have hp : parseS3Url "s3://my-bucket/a/b.json".data
      = some ("my-bucket".data, "a/b.json".data) := h.1.mpr (by decide)
  ⟨hp, h.2.2.1 hp (by decide)⟩

/-! ### Merging the cross-translation index (C3) -/

theorem dedupById_seen_irrel (l : List InputTranslationMetadata) :
    ∀ s1 s2 : List String, (∀ m ∈ l, (m.id ∈ s1 ↔ m.id ∈ s2)) →
      dedupById s1 l = dedupById s2 l := by
  induction l with
  | nil => intro s1 s2 _; rfl
  | cons m t ih =>
    intro s1 s2 h
    have hm := h m (by simp)
    by_cases h1 : m.id ∈ s1
    · have h2 : m.id ∈ s2 := hm.mp h1
      simp only [dedupById, if_pos h1, if_pos h2]
      exact ih s1 s2 (fun x hx => h x (by simp [hx]))
    · have h2 : m.id ∉ s2 := fun hc => h1 (hm.mpr hc)
      simp only [dedupById, if_neg h1, if_neg h2]
      rw [ih (m.id :: s1) (m.id :: s2) (fun x hx => by simp [h x (by simp [hx])])]

theorem dedupById_append_disjoint (l1 : List InputTranslationMetadata) :
    ∀ (l2 : List InputTranslationMetadata) (s : List String),
      (∀ m ∈ l2, m.id ∉ metaIds l1) →
      dedupById s (l1 ++ l2) = dedupById s l1 ++ dedupById s l2 := by
  induction l1 with
  | nil => intro l2 s _; rfl
  | cons m t ih =>
    intro l2 s h
    have ht : ∀ x ∈ l2, x.id ∉ metaIds t := by
      intro x hx hc
      exact h x hx (by simp [metaIds] at hc ⊢; exact Or.inr hc)
    by_cases hm : m.id ∈ s
    · simp only [List.cons_append, dedupById, if_pos hm]
      exact ih l2 s ht
    · simp only [List.cons_append, dedupById, if_neg hm]
      congr 1
      refine (ih l2 (m.id :: s) ht).trans ?_
      have hirr : dedupById (m.id :: s) l2 = dedupById s l2 := by
        apply dedupById_seen_irrel
        intro x hx
        have hxm : ¬x.id = m.id := by
          intro hc
          exact h x hx (by simp [metaIds, hc])
        simp [hxm]
      rw [hirr]

theorem dedupById_id_not_seen (l : List InputTranslationMetadata) :
    ∀ (s : List String) (m : InputTranslationMetadata), m ∈ dedupById s l → m.id ∉ s := by
  induction l with
  | nil => intro s m hm; simp [dedupById] at hm
  | cons a t ih =>
    intro s m hm
    by_cases ha : a.id ∈ s
    · rw [dedupById, if_pos ha] at hm
      exact ih s m hm
    · rw [dedupById, if_neg ha] at hm
      rcases List.mem_cons.mp hm with hm | hm
      · subst hm; exact ha
      · intro hc
        exact ih (a.id :: s) m hm (by simp [hc])

theorem dedupById_mem (l : List InputTranslationMetadata) :
    ∀ (s : List String) (m : InputTranslationMetadata), m ∈ dedupById s l → m ∈ l := by
  induction l with
  | nil => intro s m hm; simp [dedupById] at hm
  | cons a t ih =>
    intro s m hm
    by_cases ha : a.id ∈ s
    · rw [dedupById, if_pos ha] at hm
      exact List.mem_cons_of_mem a (ih s m hm)
    · rw [dedupById, if_neg ha] at hm
      rcases List.mem_cons.mp hm with hm | hm
      · simp [hm]
      · exact List.mem_cons_of_mem a (ih (a.id :: s) m hm)

theorem dedupById_ids_nodup (l : List InputTranslationMetadata) :
    ∀ s : List String, (metaIds (dedupById s l)).Nodup := by
  induction l with
  | nil => intro s; simp [dedupById, metaIds]
  | cons a t ih =>
    intro s
    by_cases ha : a.id ∈ s
    · rw [dedupById, if_pos ha]; exact ih s
    · rw [dedupById, if_neg ha]
      simp only [metaIds, List.map_cons, List.nodup_cons]
      refine ⟨?_, ih (a.id :: s)⟩
      intro hc
      simp only [metaIds, List.mem_map] at hc
      obtain ⟨x, hx, hxid⟩ := hc
      exact dedupById_id_not_seen t (a.id :: s) x hx (by simp [hxid])

theorem apiIds_map (l : List InputTranslationMetadata) :
    apiIds (l.map apiTranslation) = metaIds l := by
  induction l with
  | nil => rfl
  | cons a t ih =>
    simp only [apiIds, metaIds, List.map_cons] at ih ⊢
    rw [ih]
    rfl

theorem foldl_upsert_append (ys : List ApiTranslation) :
    ∀ xs : List ApiTranslation,
      (∀ y ∈ ys, ∀ x ∈ xs, ¬y.id = x.id) → (apiIds ys).Nodup →
      List.foldl upsertTranslation xs ys = xs ++ ys := by
  induction ys with
  | nil => intro xs _ _; simp
  | cons y t ih =>
    intro xs hdisj hnd
    have hy : ∀ x ∈ xs, ¬y.id = x.id := hdisj y (by simp)
    have hup : upsertTranslation xs y = xs ++ [y] := by
      have hany : xs.any (fun x => x.id == y.id) = false := by
        rw [Bool.eq_false_iff]
        intro hc
        rw [List.any_eq_true] at hc
        obtain ⟨x, hx, hxy⟩ := hc
        exact hy x hx (show x.id = y.id by simpa using hxy).symm
      simp [upsertTranslation, hany]
    simp only [apiIds, List.map_cons, List.nodup_cons] at hnd
    have hrec : ∀ y2 ∈ t, ∀ x ∈ xs ++ [y], ¬y2.id = x.id := by
      intro y2 hy2 x hx
      rcases List.mem_append.mp hx with hx | hx
      · exact hdisj y2 (by simp [hy2]) x hx
      · have hxy : x = y := by simpa using hx
        subst hxy
        intro hc
        exact hnd.1 (by simp only [apiIds, List.mem_map]; exact ⟨y2, hy2, hc⟩)
    rw [List.foldl_cons, hup, ih (xs ++ [y]) hrec hnd.2, List.append_assoc]
    rfl

/-- The distinct translations of a concatenation of two runs with disjoint
translation ids. -/
theorem translationsOf_append (files1 files2 : List InputFile)
    (h : ∀ f1 ∈ files1, ∀ f2 ∈ files2, ¬f1.metadata.id = f2.metadata.id) :
    translationsOf (files1 ++ files2) = translationsOf files1 ++ translationsOf files2 := by
  unfold translationsOf
  rw [List.map_append]
  apply dedupById_append_disjoint
  intro m hm hc
  simp only [metaIds, List.map_map, List.mem_map, Function.comp] at hc
  obtain ⟨f1, hf1, hid⟩ := hc
  simp only [List.mem_map] at hm
  obtain ⟨f2, hf2, hm2⟩ := hm
  exact h f1 hf1 f2 hf2 (by rw [hid, ← hm2])

/-- C3: merging the mergeable `available_translations` documents of two
generator runs over translation sets with disjoint ids (merge keyed by
translation id, last write wins) gives exactly the document of one run over
the union of the inputs, in either merge order, and the two merge orders
agree up to permutation of the entry list. -/
theorem merge_available_translations_disjoint :
    ∀ (files1 files2 : List InputFile),
      (∀ f1 ∈ files1, ∀ f2 ∈ files2, ¬f1.metadata.id = f2.metadata.id) →
      mergeAvailableTranslations (availableTranslationsDoc files1) (availableTranslationsDoc files2)
          = availableTranslationsDoc (files1 ++ files2)
        ∧ mergeAvailableTranslations (availableTranslationsDoc files2)
            (availableTranslationsDoc files1)
            = availableTranslationsDoc (files2 ++ files1)
        ∧ (mergeAvailableTranslations (availableTranslationsDoc files1)
            (availableTranslationsDoc files2)).translations.Perm
            (mergeAvailableTranslations (availableTranslationsDoc files2)
              (availableTranslationsDoc files1)).translations := by
  intro files1 files2 h
  have hsym : ∀ f2 ∈ files2, ∀ f1 ∈ files1, ¬f2.metadata.id = f1.metadata.id := by
    intro f2 h2 f1 h1 hc
    exact h f1 h1 f2 h2 hc.symm
  have hdisj12 : ∀ y ∈ (translationsOf files2).map apiTranslation,
      ∀ x ∈ (translationsOf files1).map apiTranslation, ¬y.id = x.id := by
    intro y hy x hx
    rw [List.mem_map] at hy hx
    obtain ⟨m2, hm2, hy2⟩ := hy
    obtain ⟨m1, hm1, hx1⟩ := hx
    subst hy2
    subst hx1
    simp only [apiTranslation]
    have hm2' := dedupById_mem _ _ _ hm2
    have hm1' := dedupById_mem _ _ _ hm1
    rw [List.mem_map] at hm2' hm1'
    obtain ⟨f2, hf2, he2⟩ := hm2'
    obtain ⟨f1, hf1, he1⟩ := hm1'
    intro hc
    exact h f1 hf1 f2 hf2 (by rw [he1, he2]; exact hc.symm)
  have hdisj21 : ∀ y ∈ (translationsOf files1).map apiTranslation,
      ∀ x ∈ (translationsOf files2).map apiTranslation, ¬y.id = x.id := by
    intro y hy x hx hc
    exact hdisj12 x hx y hy hc.symm
  have hnd1 : (apiIds ((translationsOf files1).map apiTranslation)).Nodup := by
    rw [apiIds_map]; exact dedupById_ids_nodup _ _
  have hnd2 : (apiIds ((translationsOf files2).map apiTranslation)).Nodup := by
    rw [apiIds_map]; exact dedupById_ids_nodup _ _
  have h12 : mergeAvailableTranslations (availableTranslationsDoc files1)
      (availableTranslationsDoc files2) = availableTranslationsDoc (files1 ++ files2) := by
    unfold mergeAvailableTranslations availableTranslationsDoc
    rw [translationsOf_append files1 files2 h, List.map_append]
    congr 1
    exact foldl_upsert_append _ _ hdisj12 hnd2
  have h21 : mergeAvailableTranslations (availableTranslationsDoc files2)
      (availableTranslationsDoc files1) = availableTranslationsDoc (files2 ++ files1) := by
    unfold mergeAvailableTranslations availableTranslationsDoc
    rw [translationsOf_append files2 files1 hsym, List.map_append]
    congr 1
    exact foldl_upsert_append _ _ hdisj21 hnd1
  refine ⟨h12, h21, ?_⟩
  rw [h12, h21]
  unfold availableTranslationsDoc
  rw [translationsOf_append files1 files2 h, translationsOf_append files2 files1 hsym,
    List.map_append, List.map_append]
  exact List.perm_append_comm

/-- C3 witness: merging the single-translation bsb and web runs in either
order gives the two-translation union index, and the two orders agree up to
permutation. -/
theorem merge_available_translations_disjoint_witness :
    mergeAvailableTranslations (availableTranslationsDoc [⟨bsbMeta, ""⟩])
        (availableTranslationsDoc [⟨webMeta, ""⟩])
        = availableTranslationsDoc ([⟨bsbMeta, ""⟩] ++ [⟨webMeta, ""⟩])
      ∧ mergeAvailableTranslations (availableTranslationsDoc [⟨webMeta, ""⟩])
          (availableTranslationsDoc [⟨bsbMeta, ""⟩])
          = availableTranslationsDoc ([⟨webMeta, ""⟩] ++ [⟨bsbMeta, ""⟩])
      ∧ (mergeAvailableTranslations (availableTranslationsDoc [⟨bsbMeta, ""⟩])
          (availableTranslationsDoc [⟨webMeta, ""⟩])).translations.Perm
          (mergeAvailableTranslations (availableTranslationsDoc [⟨webMeta, ""⟩])
            (availableTranslationsDoc [⟨bsbMeta, ""⟩])).translations :=
  merge_available_translations_disjoint [⟨bsbMeta, ""⟩] [⟨webMeta, ""⟩] (by decide)

/-! ### Chapter document decomposition (shared by C2, C4, C6) -/

theorem chapterDocList_getElem (cfg : Bool) (t : InputTranslationMetadata) (b : ParsedBook) :
    ∀ (cs : List ChapterData) (i : Nat) (d : String × ChapterDoc),
      (chapterDocList cfg t b cs)[i]? = some d →
      d.2.nextChapterLink = Option.map (fun c2 => chapterPath cfg t.id b c2.number) cs[i + 1]? := by
  intro cs
  induction cs with
  | nil => intro i d h; simp [chapterDocList] at h
  | cons c rest ih =>
    intro i d h
    cases i with
    | zero =>
      simp only [chapterDocList, List.getElem?_cons_zero, Option.some.injEq] at h
      subst h
      cases rest with
      | nil => simp [nextLink]
      | cons c2 r2 => simp [nextLink]
    | succ i =>
      simp only [chapterDocList, List.getElem?_cons_succ] at h
      simpa using ih i d h

theorem chapterDocList_mem (cfg : Bool) (t : InputTranslationMetadata) (b : ParsedBook) :
    ∀ (cs : List ChapterData) (p : String × ChapterDoc), p ∈ chapterDocList cfg t b cs →
      ∃ c ∈ cs, p.1 = chapterPath cfg t.id b c.number ∧ p.2.chapter = c := by
  intro cs
  induction cs with
  | nil => intro p hp; simp [chapterDocList] at hp
  | cons c rest ih =>
    intro p hp
    rcases List.mem_cons.mp hp with hp | hp
    · exact ⟨c, by simp, by rw [hp], by rw [hp]⟩
    · obtain ⟨c2, hc2, h1, h2⟩ := ih p hp
      exact ⟨c2, by simp [hc2], h1, h2⟩

/-- Every chapter document in the generated tree comes from some position
of the chapter document list of a parsed book of one of the run's
translations. -/
theorem generate_chapter_mem (cfg : Bool) (files : List InputFile) (f : OutputFile)
    (d : ChapterDoc) (hf : f ∈ generate cfg files) (hc : f.content = ApiContent.chapter d) :
    ∃ t b, t ∈ translationsOf files ∧ b ∈ parsedBooksFor t files
      ∧ ∃ i : Nat, (chapterDocList cfg t b b.chapters)[i]? = some (f.path, d) := by
  simp only [generate, List.mem_cons] at hf
  rcases hf with hf | hf
  · rw [hf] at hc
    simp at hc
  · rw [List.mem_flatMap] at hf
    obtain ⟨t, ht, hf⟩ := hf
    simp only [translationDocs, List.mem_cons] at hf
    rcases hf with hf | hf
    · rw [hf] at hc
      simp at hc
    · rw [List.mem_flatMap] at hf
      obtain ⟨b, hb, hf⟩ := hf
      rw [List.mem_map] at hf
      obtain ⟨p, hp, hfp⟩ := hf
      obtain ⟨i, hi⟩ := List.getElem?_of_mem hp
      refine ⟨t, b, ht, hb, i, ?_⟩
      rw [hi]
      have hpath : f.path = p.1 := by rw [← hfp]
      have hcd : ApiContent.chapter p.2 = ApiContent.chapter d := by rw [← hc, ← hfp]
      injection hcd with hpd
      rw [hpath, ← hpd]

/-- C2 amended: next-chapter adjacency is within a book only — the i-th
chapter document of a book links to the (i+1)-th chapter's path when one
exists and carries null otherwise, so the last chapter of every book
(canonically last or not) has a null `nextChapterLink`; and every chapter
document the generator emits arises as such a position of its book's
chapter document list. -/
theorem next_chapter_link_within_book :
    (∀ (cfg : Bool) (t : InputTranslationMetadata) (b : ParsedBook)
        (cs : List ChapterData) (i : Nat) (d : String × ChapterDoc),
        (chapterDocList cfg t b cs)[i]? = some d →
        d.2.nextChapterLink
          = Option.map (fun c2 => chapterPath cfg t.id b c2.number) cs[i + 1]?)
      ∧ (∀ (cfg : Bool) (files : List InputFile) (f : OutputFile) (d : ChapterDoc),
          f ∈ generate cfg files → f.content = ApiContent.chapter d →
          ∃ t b, t ∈ translationsOf files ∧ b ∈ parsedBooksFor t files
            ∧ ∃ i : Nat, (chapterDocList cfg t b b.chapters)[i]? = some (f.path, d)) :=
  ⟨fun cfg t b cs i d h => chapterDocList_getElem cfg t b cs i d h,
   fun cfg files f d hf hc => generate_chapter_mem cfg files f d hf hc⟩

/-- C2 amended, witness: in a two-chapter book the first chapter document
links to chapter 2. -/
theorem next_chapter_link_within_book_witness :
    wDoc0.2.nextChapterLink
      = Option.map (fun c2 => chapterPath true bsbMeta.id wBook c2.number) wChapters[1]? :=
  next_chapter_link_within_book.1 true bsbMeta wBook wChapters 0 wDoc0 (by decide)

/-- C6: every path the generator synthesizes has one of the three forms
`/bible/available_translations`, `/bible/{translationId}/books`, or
`/bible/{translationId}/{segment}/{chapterNumber}.json`, where the book
segment of every chapter path is `bookSegment cfg b` — the common name or
the canonical book id as selected by the single generation-time
configuration flag, uniformly for all books. -/
theorem generated_paths_conform :
    ∀ (cfg : Bool) (files : List InputFile) (f : OutputFile), f ∈ generate cfg files →
      f.path = "/bible/available_translations"
        ∨ (∃ t ∈ translationsOf files, f.path = "/bible/" ++ t.id ++ "/books")
        ∨ (∃ t ∈ translationsOf files, ∃ b ∈ parsedBooksFor t files, ∃ n : Nat,
            f.path = "/bible/" ++ t.id ++ "/" ++ bookSegment cfg b ++ "/"
              ++ Nat.repr n ++ ".json") := by
  intro cfg files f hf
  simp only [generate, List.mem_cons] at hf
  rcases hf with hf | hf
  · left
    rw [hf]
  · rw [List.mem_flatMap] at hf
    obtain ⟨t, ht, hf⟩ := hf
    simp only [translationDocs, List.mem_cons] at hf
    rcases hf with hf | hf
    · right; left
      exact ⟨t, ht, by rw [hf]⟩
    · right; right
      rw [List.mem_flatMap] at hf
      obtain ⟨b, hb, hf⟩ := hf
      rw [List.mem_map] at hf
      obtain ⟨p, hp, hfp⟩ := hf
      obtain ⟨c, _, hpath, _⟩ := chapterDocList_mem cfg t b b.chapters p hp
      refine ⟨t, ht, b, hb, c.number, ?_⟩
      rw [← hfp]
      show p.1 = _
      rw [hpath]
      rfl

/-- C6 witness: the book-index document of the BSB sample run has the
`/bible/{translationId}/books` form. -/
theorem generated_paths_conform_witness :
    bsbBooksFile.path = "/bible/available_translations"
      ∨ (∃ t ∈ translationsOf bsbInputFiles, bsbBooksFile.path = "/bible/" ++ t.id ++ "/books")
      ∨ (∃ t ∈ translationsOf bsbInputFiles, ∃ b ∈ parsedBooksFor t bsbInputFiles, ∃ n : Nat,
          bsbBooksFile.path = "/bible/" ++ t.id ++ "/" ++ bookSegment true b ++ "/"
            ++ Nat.repr n ++ ".json") :=
  generated_paths_conform true bsbInputFiles bsbBooksFile (by decide)

/-! ### The builder's footnote invariant (C4) -/

theorem contentRefIds_append (a b : List ChapterContent) :
    contentRefIds (a ++ b) = contentRefIds a ++ contentRefIds b := by
  simp [contentRefIds]

theorem vcRefIds_append (a b : List VerseContentItem) :
    vcRefIds (a ++ b) = vcRefIds a ++ vcRefIds b := by
  simp [vcRefIds]

theorem tableIds_append (a b : List ChapterFootnote) :
    tableIds (a ++ b) = tableIds a ++ tableIds b := by
  simp [tableIds]

theorem filter_noteId_count (fns : List ChapterFootnote) (i : Nat) :
    (fns.filter (fun fn => fn.noteId == i)).length = (tableIds fns).count i := by
  induction fns with
  | nil => rfl
  | cons fn t ih =>
    by_cases h : fn.noteId = i
    · simp [List.filter_cons, tableIds, List.count_cons, h, ih]
    · simp [List.filter_cons, tableIds, List.count_cons, h, ih]

/-- A chapter whose note ids are 1..n and whose content references all
resolve into the table satisfies the footnote invariant. -/
theorem chapterOk_of (c : ChapterData)
    (hids : tableIds c.footnotes = List.range' 1 c.footnotes.length)
    (href : ∀ i ∈ contentRefIds c.content, i ∈ tableIds c.footnotes) : ChapterOk c := by
  intro i hi
  have hnd : (tableIds c.footnotes).Nodup := by
    rw [hids]
    exact List.nodup_range' 1 _ 1 (by omega)
  rw [filter_noteId_count]
  exact List.count_eq_one_of_mem hnd (href i hi)

theorem inv_closeFootnote (s : BuilderState) (h : Inv s) :
    Inv (closeFootnote s)
      ∧ (closeFootnote s).chapters = s.chapters
      ∧ (closeFootnote s).chapter.isSome = s.chapter.isSome
      ∧ (closeFootnote s).verse = s.verse
      ∧ (closeFootnote s).footnote = none
      ∧ chRefs (closeFootnote s) = chRefs s
      ∧ (∀ i ∈ chRefs s, i ∈ tableIds (chTable (closeFootnote s))) := by
  obtain ⟨chs, och, ov, ofn⟩ := s
  cases ofn with
  | none =>
    have he : closeFootnote ⟨chs, och, ov, none⟩ = ⟨chs, och, ov, none⟩ := by
      cases och <;> rfl
    rw [he]
    refine ⟨h, rfl, rfl, rfl, rfl, rfl, ?_⟩
    intro i hi
    rcases h.refsResolve i hi with hm | ⟨f, hf, _⟩
    · exact hm
    · exact absurd hf (by simp)
  | some f =>
    cases och with
    | none =>
      exact absurd (h.noChapter rfl).2 (by simp)
    | some ch =>
      have hid : f.id = ch.footnotes.length + 1 := h.pendingId f rfl
      have hseq : tableIds ch.footnotes = List.range' 1 ch.footnotes.length := h.idsSeq
      have hrefs : ∀ i ∈ chRefs ⟨chs, some ch, ov, some f⟩,
          i ∈ tableIds ch.footnotes ∨ i = f.id := by
        intro i hi
        rcases h.refsResolve i hi with hm | ⟨f2, hf2, hi2⟩
        · exact Or.inl hm
        · injection hf2 with hf2
          subst hf2
          exact Or.inr hi2
      have he : ∀ entry : ChapterFootnote, entry.noteId = f.id →
          ∀ newch, newch = { ch with footnotes := ch.footnotes ++ [entry] } →
          Inv ⟨chs, some newch, ov, none⟩
            ∧ (∀ i ∈ chRefs (⟨chs, some ch, ov, some f⟩ : BuilderState),
                i ∈ tableIds newch.footnotes) := by
        intro entry hentry newch hnew
        subst hnew
        have htab : tableIds (ch.footnotes ++ [entry])
            = List.range' 1 (ch.footnotes ++ [entry]).length := by
          rw [tableIds_append, hseq, List.length_append]
          show _ = List.range' 1 (ch.footnotes.length + 1)
          rw [List.range'_concat]
          congr 1
          simp [tableIds, hentry, hid]
          omega
        have hres : ∀ i ∈ chRefs (⟨chs, some ch, ov, some f⟩ : BuilderState),
            i ∈ tableIds (ch.footnotes ++ [entry]) := by
          intro i hi
          rw [tableIds_append]
          rcases hrefs i hi with hm | hm
          · exact List.mem_append_left _ hm
          · apply List.mem_append_right
            simp [tableIds, hentry, hm]
        refine ⟨⟨h.chaptersOk, by simp, htab, by simp, ?_⟩, hres⟩
        intro i hi
        exact Or.inl (hres i hi)
      have hcf : closeFootnote ⟨chs, some ch, ov, some f⟩
          = ⟨chs, some { ch with footnotes := ch.footnotes
              ++ [⟨f.id, f.text,
                    match ov with
                    | some v => some ⟨ch.number, v.number⟩
                    | none => none,
                    f.caller⟩] }, ov, none⟩ := by
        cases ov <;> rfl
      rw [hcf]
      obtain ⟨hinv, hres⟩ :=
        he ⟨f.id, f.text,
            (match ov with
             | some v => some ⟨ch.number, v.number⟩
             | none => none),
            f.caller⟩ rfl _ rfl
      exact ⟨hinv, rfl, rfl, rfl, rfl, rfl, hres⟩

theorem inv_flushVerse (s : BuilderState) (h : Inv s) :
    Inv (flushVerse s)
      ∧ (flushVerse s).chapters = s.chapters
      ∧ (flushVerse s).chapter.isSome = s.chapter.isSome
      ∧ (flushVerse s).verse = none
      ∧ (flushVerse s).footnote = s.footnote
      ∧ chTable (flushVerse s) = chTable s
      ∧ chRefs (flushVerse s) = chRefs s := by
  obtain ⟨chs, och, ov, ofn⟩ := s
  cases ov with
  | none =>
    have he : flushVerse ⟨chs, och, none, ofn⟩ = ⟨chs, och, none, ofn⟩ := by
      cases och <;> rfl
    rw [he]
    exact ⟨h, rfl, rfl, rfl, rfl, rfl, rfl⟩
  | some v =>
    cases och with
    | none =>
      exact absurd (h.noChapter rfl).1 (by simp)
    | some ch =>
      have he : flushVerse ⟨chs, some ch, some v, ofn⟩
          = ⟨chs, some { ch with content := ch.content
              ++ [ChapterContent.verse v.number v.items] }, none, ofn⟩ := rfl
      rw [he]
      have hrefs : chRefs (⟨chs, some { ch with content := ch.content
            ++ [ChapterContent.verse v.number v.items] }, none, ofn⟩ : BuilderState)
          = chRefs ⟨chs, some ch, some v, ofn⟩ := by
        show contentRefIds (ch.content ++ [ChapterContent.verse v.number v.items]) ++ vcRefIds []
          = contentRefIds ch.content ++ vcRefIds v.items
        rw [contentRefIds_append]
        simp [contentRefIds, vcRefIds]
      refine ⟨⟨h.chaptersOk, by simp, h.idsSeq, h.pendingId, ?_⟩, rfl, rfl, rfl, rfl, rfl, hrefs⟩
      intro i hi
      rw [hrefs] at hi
      exact h.refsResolve i hi

theorem inv_flushChapter (s : BuilderState) (h : Inv s) :
    Inv (flushChapter s) ∧ (flushChapter s).chapter = none := by
  obtain ⟨hinv1, hchs1, hsome1, hv1, hf1, hrefs1, htab1⟩ := inv_closeFootnote s h
  obtain ⟨hinv2, hchs2, hsome2, hv2, hf2, htab2, hrefs2⟩ :=
    inv_flushVerse (closeFootnote s) hinv1
  rcases hE : flushVerse (closeFootnote s) with ⟨chs2, och2, ov2, ofn2⟩
  rw [hE] at hinv2 hchs2 hsome2 hv2 hf2 htab2 hrefs2
  have hov2 : ov2 = none := hv2
  subst hov2
  have hofn2 : ofn2 = none := hf2.trans hf1
  subst hofn2
  unfold flushChapter
  rw [hE]
  cases och2 with
  | none => exact ⟨hinv2, rfl⟩
  | some ch =>
    show Inv (⟨chs2 ++ [⟨ch.number, ch.content, ch.footnotes⟩], none, none, none⟩ : BuilderState)
      ∧ (⟨chs2 ++ [⟨ch.number, ch.content, ch.footnotes⟩], none, none,
          none⟩ : BuilderState).chapter = none
    refine ⟨⟨?_, ?_, rfl, ?_, ?_⟩, rfl⟩
    · intro c hc
      rcases List.mem_append.mp hc with hc | hc
      · exact hinv2.chaptersOk c hc
      · have hceq : c = ⟨ch.number, ch.content, ch.footnotes⟩ := by simpa using hc
        subst hceq
        apply chapterOk_of
        · exact hinv2.idsSeq
        · intro i hi
          have hi2 : i ∈ chRefs (⟨chs2, some ch, none, none⟩ : BuilderState) := by
            show i ∈ contentRefIds ch.content ++ vcRefIds []
            simpa [vcRefIds] using hi
          rcases hinv2.refsResolve i hi2 with hm | ⟨f, hf, _⟩
          · exact hm
          · exact absurd hf (by simp)
    · intro
      exact ⟨rfl, rfl⟩
    · intro f hf
      exact absurd hf (by simp)
    · intro i hi
      simp [chRefs, vItems, contentRefIds, vcRefIds] at hi

theorem inv_ensureChapter (s : BuilderState) (h : Inv s) :
    Inv (ensureChapter s)
      ∧ (ensureChapter s).chapters = s.chapters
      ∧ (ensureChapter s).chapter.isSome = true
      ∧ (ensureChapter s).verse = s.verse
      ∧ (ensureChapter s).footnote = s.footnote
      ∧ chTable (ensureChapter s) = chTable s
      ∧ chRefs (ensureChapter s) = chRefs s := by
  obtain ⟨chs, och, ov, ofn⟩ := s
  cases och with
  | some ch => exact ⟨h, rfl, rfl, rfl, rfl, rfl, rfl⟩
  | none =>
    obtain ⟨hv, hf⟩ := h.noChapter rfl
    have hv2 : ov = none := hv
    have hf2 : ofn = none := hf
    subst hv2
    subst hf2
    show Inv (⟨chs, some ⟨1, [], []⟩, none, none⟩ : BuilderState) ∧ _
    refine ⟨⟨h.chaptersOk, by simp, rfl, ?_, ?_⟩, rfl, rfl, rfl, rfl, rfl, rfl⟩
    · intro f hf3
      exact absurd hf3 (by simp)
    · intro i hi
      simp [chRefs, vItems, contentRefIds, vcRefIds] at hi

theorem inv_step (s : BuilderState) (t : Token) (h : Inv s) : Inv (step s t) := by
  cases t with
  | chapterTok n =>
    obtain ⟨h1, h2⟩ := inv_flushChapter s h
    rcases hE : flushChapter s with ⟨chs2, och2, ov2, ofn2⟩
    rw [hE] at h1 h2
    have hoch : och2 = none := h2
    subst hoch
    obtain ⟨hv, hf⟩ := h1.noChapter rfl
    have hv2 : ov2 = none := hv
    have hf2 : ofn2 = none := hf
    subst hv2
    subst hf2
    simp only [step]
    rw [hE]
    show Inv (⟨chs2, some ⟨n, [], []⟩, none, none⟩ : BuilderState)
    refine ⟨h1.chaptersOk, by simp, rfl, ?_, ?_⟩
    · intro f hf3
      exact absurd hf3 (by simp)
    · intro i hi
      simp [chRefs, vItems, contentRefIds, vcRefIds] at hi
  | verseTok n =>
    obtain ⟨h1, hchs1, hsome1, hv1, hf1, htab1, hrefs1⟩ := inv_ensureChapter s h
    obtain ⟨h2, hchs2, hsome2, hv2, hf2, htab2, hrefs2⟩ :=
      inv_flushVerse (ensureChapter s) h1
    rcases hE : flushVerse (ensureChapter s) with ⟨chs2, och2, ov2, ofn2⟩
    rw [hE] at h2 hchs2 hsome2 hv2 hf2 htab2 hrefs2
    have hov : ov2 = none := hv2
    subst hov
    have hsome : och2.isSome = true := hsome2.trans hsome1
    rcases och2 with _ | ch2
    · simp at hsome
    · simp only [step]
      rw [hE]
      show Inv (⟨chs2, some ch2, some ⟨n, []⟩, ofn2⟩ : BuilderState)
      refine ⟨h2.chaptersOk, by simp, h2.idsSeq, h2.pendingId, ?_⟩
      intro i hi
      exact h2.refsResolve i hi
  | headingTok txt =>
    obtain ⟨chs, och, ov, ofn⟩ := s
    cases och with
    | none => exact h
    | some ch =>
      obtain ⟨h2, hchs2, hsome2, hv2, hf2, htab2, hrefs2⟩ :=
        inv_flushVerse (⟨chs, some ch, ov, ofn⟩ : BuilderState) h
      rcases hE : flushVerse (⟨chs, some ch, ov, ofn⟩ : BuilderState)
        with ⟨chs2, och2, ov2, ofn2⟩
      rw [hE] at h2 hchs2 hsome2 hv2 hf2 htab2 hrefs2
      have hov : ov2 = none := hv2
      subst hov
      have hsome : och2.isSome = true := hsome2
      rcases och2 with _ | ch2
      · simp at hsome
      · simp only [step]
        rw [hE]
        show Inv (⟨chs2, some { ch2 with content := ch2.content
            ++ [ChapterContent.heading [txt]] }, none, ofn2⟩ : BuilderState)
        refine ⟨h2.chaptersOk, by simp, h2.idsSeq, h2.pendingId, ?_⟩
        intro i hi
        apply h2.refsResolve i
        have hi2 : i ∈ contentRefIds (ch2.content ++ [ChapterContent.heading [txt]])
            ++ vcRefIds [] := hi
        rw [contentRefIds_append,
          show contentRefIds [ChapterContent.heading [txt]] = [] from rfl,
          List.append_nil] at hi2
        rcases List.mem_append.mp hi2 with hm | hm
        · exact List.mem_append_left _ hm
        · exact List.mem_append_right _ hm
  | lineBreakTok =>
    obtain ⟨chs, och, ov, ofn⟩ := s
    cases och with
    | none => exact h
    | some ch =>
      obtain ⟨h2, hchs2, hsome2, hv2, hf2, htab2, hrefs2⟩ :=
        inv_flushVerse (⟨chs, some ch, ov, ofn⟩ : BuilderState) h
      rcases hE : flushVerse (⟨chs, some ch, ov, ofn⟩ : BuilderState)
        with ⟨chs2, och2, ov2, ofn2⟩
      rw [hE] at h2 hchs2 hsome2 hv2 hf2 htab2 hrefs2
      have hov : ov2 = none := hv2
      subst hov
      have hsome : och2.isSome = true := hsome2
      rcases och2 with _ | ch2
      · simp at hsome
      · simp only [step]
        rw [hE]
        show Inv (⟨chs2, some { ch2 with content := ch2.content
            ++ [ChapterContent.lineBreak] }, none, ofn2⟩ : BuilderState)
        refine ⟨h2.chaptersOk, by simp, h2.idsSeq, h2.pendingId, ?_⟩
        intro i hi
        apply h2.refsResolve i
        have hi2 : i ∈ contentRefIds (ch2.content ++ [ChapterContent.lineBreak])
            ++ vcRefIds [] := hi
        rw [contentRefIds_append,
          show contentRefIds [ChapterContent.lineBreak] = [] from rfl,
          List.append_nil] at hi2
        rcases List.mem_append.mp hi2 with hm | hm
        · exact List.mem_append_left _ hm
        · exact List.mem_append_right _ hm
  | textTok txt =>
    obtain ⟨chs, och, ov, ofn⟩ := s
    cases ofn with
    | some f =>
      simp only [step]
      show Inv (⟨chs, och, ov, some { f with text := appendBody f.text txt }⟩ : BuilderState)
      refine ⟨h.chaptersOk, ?_, h.idsSeq, ?_, ?_⟩
      · intro hoc
        exact absurd (h.noChapter hoc).2 (by simp)
      · intro f2 hf2
        injection hf2 with hf2
        subst hf2
        exact h.pendingId f rfl
      · intro i hi
        rcases h.refsResolve i hi with hm | ⟨f2, hf2, hi2⟩
        · exact Or.inl hm
        · injection hf2 with hf2
          subst hf2
          exact Or.inr ⟨{ f with text := appendBody f.text txt }, rfl, hi2⟩
    | none =>
      cases ov with
      | some v =>
        simp only [step]
        show Inv (⟨chs, och, some { v with items := v.items
            ++ [VerseContentItem.text txt] }, none⟩ : BuilderState)
        refine ⟨h.chaptersOk, ?_, h.idsSeq, ?_, ?_⟩
        · intro hoc
          exact absurd (h.noChapter hoc).1 (by simp)
        · intro f2 hf2
          exact absurd hf2 (by simp)
        · intro i hi
          apply h.refsResolve i
          simpa [chRefs, vItems, vcRefIds_append, vcRefIds] using hi
      | none => exact h
  | footnoteStartTok c =>
    obtain ⟨chs, och, ov, ofn⟩ := s
    cases och with
    | none => exact h
    | some ch =>
      obtain ⟨h1, hchs1, hsome1, hv1, hf1, hrefs1, htab1⟩ :=
        inv_closeFootnote (⟨chs, some ch, ov, ofn⟩ : BuilderState) h
      rcases hE : closeFootnote (⟨chs, some ch, ov, ofn⟩ : BuilderState)
        with ⟨chs1, och1, ov1, ofn1⟩
      rw [hE] at h1 hchs1 hsome1 hv1 hf1 hrefs1 htab1
      have hofn1 : ofn1 = none := hf1
      subst hofn1
      have hov1 : ov1 = ov := hv1
      subst hov1
      have hsome : och1.isSome = true := hsome1
      rcases och1 with _ | ch1
      · simp at hsome
      · simp only [step]
        rw [hE]
        cases ov1 with
        | some v =>
          show Inv (⟨chs1, some ch1, some { v with items := v.items
              ++ [VerseContentItem.noteRef (ch1.footnotes.length + 1)] },
              some ⟨ch1.footnotes.length + 1, c, ""⟩⟩ : BuilderState)
          refine ⟨h1.chaptersOk, by simp, h1.idsSeq, ?_, ?_⟩
          · intro f2 hf2
            injection hf2 with hf2
            subst hf2
            rfl
          · intro i hi
            have hi2 : i ∈ contentRefIds ch1.content
                ++ (vcRefIds v.items ++ [ch1.footnotes.length + 1]) := by
              simpa [chRefs, vItems, vcRefIds_append, vcRefIds] using hi
            rw [← List.append_assoc] at hi2
            rcases List.mem_append.mp hi2 with hm | hm
            · left
              have hm2 : i ∈ chRefs (⟨chs, some ch, some v, ofn⟩ : BuilderState) := by
                rw [← hrefs1]
                exact hm
              exact htab1 i hm2
            · right
              have hieq : i = ch1.footnotes.length + 1 := by simpa using hm
              exact ⟨⟨ch1.footnotes.length + 1, c, ""⟩, rfl, hieq⟩
        | none =>
          show Inv (⟨chs1, some ch1, none,
              some ⟨ch1.footnotes.length + 1, c, ""⟩⟩ : BuilderState)
          refine ⟨h1.chaptersOk, by simp, h1.idsSeq, ?_, ?_⟩
          · intro f2 hf2
            injection hf2 with hf2
            subst hf2
            rfl
          · intro i hi
            left
            have hm2 : i ∈ chRefs (⟨chs, some ch, none, ofn⟩ : BuilderState) := by
              rw [← hrefs1]
              exact hi
            exact htab1 i hm2
  | footnoteEndTok => exact (inv_closeFootnote s h).1

theorem inv_initState : Inv initState := by
  refine ⟨?_, ?_, rfl, ?_, ?_⟩
  · intro c hc
    simp [initState] at hc
  · intro
    exact ⟨rfl, rfl⟩
  · intro f hf
    simp [initState] at hf
  · intro i hi
    simp [chRefs, initState, vItems, contentRefIds, vcRefIds] at hi

theorem inv_runTokens (ts : List Token) : ∀ s : BuilderState, Inv s → Inv (runTokens s ts) := by
  induction ts with
  | nil => intro s h; exact h
  | cons t ts ih => intro s h; exact ih (step s t) (inv_step s t h)

/-- Every chapter the builder outputs satisfies the footnote invariant,
for every token stream. -/
theorem buildChapters_ok (tokens : List Token) : ∀ c ∈ buildChapters tokens, ChapterOk c :=
  (inv_flushChapter (runTokens initState tokens)
    (inv_runTokens tokens initState inv_initState)).1.chaptersOk

theorem parseBook_chapters_ok (content : String) (b : ParsedBook)
    (h : parseBook content = some b) : ∀ c ∈ b.chapters, ChapterOk c := by
  simp only [parseBook] at h
  split at h
  · exact absurd h (by simp)
  · split at h
    · exact absurd h (by simp)
    · simp only [Option.some.injEq] at h
      subst h
      exact buildChapters_ok _

theorem insertByOrder_mem (b x : ParsedBook) :
    ∀ l : List ParsedBook, x ∈ insertByOrder b l → x = b ∨ x ∈ l := by
  intro l
  induction l with
  | nil =>
    intro hx
    left
    simpa [insertByOrder] using hx
  | cons a t3 ih =>
    intro hx
    by_cases hord : b.bookOrder ≤ a.bookOrder
    · simp only [insertByOrder, if_pos hord] at hx
      rcases List.mem_cons.mp hx with hx | hx
      · exact Or.inl hx
      · exact Or.inr hx
    · simp only [insertByOrder, if_neg hord] at hx
      rcases List.mem_cons.mp hx with hx | hx
      · exact Or.inr (by simp [hx])
      · rcases ih hx with hx | hx
        · exact Or.inl hx
        · exact Or.inr (List.mem_cons_of_mem a hx)

theorem sortBooks_mem (bs : List ParsedBook) (x : ParsedBook) :
    x ∈ sortBooks bs → x ∈ bs := by
  unfold sortBooks
  induction bs with
  | nil =>
    intro hx
    simp at hx
  | cons a t ih =>
    intro hx
    simp only [List.foldr_cons] at hx
    rcases insertByOrder_mem a x _ hx with h1 | h1
    · simp [h1]
    · exact List.mem_cons_of_mem a (ih h1)

/-- C4: every footnote reference occurring in the content of a chapter
document emitted by the generator has exactly one matching entry in that
same chapter's footnote table — no dangling footnote reference reaches
generator output. -/
theorem generated_chapters_footnotes_resolve :
    ∀ (cfg : Bool) (files : List InputFile) (f : OutputFile) (d : ChapterDoc),
      f ∈ generate cfg files → f.content = ApiContent.chapter d →
      ∀ i ∈ contentRefIds d.chapter.content,
        (d.chapter.footnotes.filter (fun fn => fn.noteId == i)).length = 1 := by
  intro cfg files f d hf hc i hi
  obtain ⟨t, b, ht, hb, j, hj⟩ := generate_chapter_mem cfg files f d hf hc
  have hmem : (f.path, d) ∈ chapterDocList cfg t b b.chapters := List.getElem?_mem hj
  obtain ⟨c, hcmem, _, hchap⟩ := chapterDocList_mem cfg t b b.chapters (f.path, d) hmem
  have hbooks : ∃ f2 ∈ files, parseBook f2.content = some b := by
    unfold parsedBooksFor at hb
    have hb2 := sortBooks_mem _ _ hb
    rw [List.mem_filterMap] at hb2
    obtain ⟨file, hfile, hparse⟩ := hb2
    exact ⟨file, (List.mem_filter.mp hfile).1, hparse⟩
  obtain ⟨f2, _, hparse⟩ := hbooks
  have hco : ChapterOk c := parseBook_chapters_ok f2.content b hparse c hcmem
  have hdc : d.chapter = c := hchap
  rw [hdc]
  exact hco i (by rw [← hdc]; exact hi)

/-- C4 witness: in the run over the footnote sample, the chapter document's
single reference (note id 1) has exactly one matching footnote entry. -/
theorem generated_chapters_footnotes_resolve_witness :
    (fnChapterDoc.chapter.footnotes.filter (fun fn => fn.noteId == 1)).length = 1 :=
  generated_chapters_footnotes_resolve true fnInputFiles fnOutputFile fnChapterDoc
    (by decide) (by decide) 1 (by decide)

/-! ### Footnote caller provenance and rendering (C8) -/

theorem closeFootnote_footnote (s : BuilderState) : (closeFootnote s).footnote = none := by
  obtain ⟨chs, och, ov, ofn⟩ := s
  cases ofn <;> cases och <;> rfl

theorem stateCallers_closeFootnote (s : BuilderState) :
    ∀ x ∈ stateCallers (closeFootnote s), x ∈ stateCallers s := by
  obtain ⟨chs, och, ov, ofn⟩ := s
  cases ofn with
  | none =>
    have he : closeFootnote ⟨chs, och, ov, none⟩ = ⟨chs, och, ov, none⟩ := by
      cases och <;> rfl
    rw [he]
    intro x hx
    exact hx
  | some f =>
    cases och with
    | none =>
      intro x hx
      have hx2 : x ∈ stateCallers (⟨chs, none, ov, none⟩ : BuilderState) := hx
      simp only [stateCallers, List.mem_append] at hx2 ⊢
      rcases hx2 with (hm | hm) | hm
      · exact Or.inl (Or.inl hm)
      · exact Or.inl (Or.inr hm)
      · simp at hm
    | some ch =>
      have hcf : closeFootnote ⟨chs, some ch, ov, some f⟩
          = ⟨chs, some { ch with footnotes := ch.footnotes
              ++ [⟨f.id, f.text,
                    match ov with
                    | some v => some ⟨ch.number, v.number⟩
                    | none => none,
                    f.caller⟩] }, ov, none⟩ := by
        cases ov <;> rfl
      rw [hcf]
      intro x hx
      simp only [stateCallers, footnoteCallers, List.map_append, List.mem_append,
        List.map_cons, List.map_nil, List.mem_singleton, List.mem_cons,
        List.not_mem_nil, or_false] at hx ⊢
      tauto

theorem stateCallers_flushVerse (s : BuilderState) :
    stateCallers (flushVerse s) = stateCallers s := by
  obtain ⟨chs, och, ov, ofn⟩ := s
  cases ov with
  | none => cases och <;> rfl
  | some v =>
    cases och with
    | none => rfl
    | some ch => rfl

theorem stateCallers_ensureChapter (s : BuilderState) :
    stateCallers (ensureChapter s) = stateCallers s := by
  obtain ⟨chs, och, ov, ofn⟩ := s
  cases och <;> rfl

theorem stateCallers_appendContent (s : BuilderState) (c : ChapterContent) :
    stateCallers (appendContent s c) = stateCallers s := by
  obtain ⟨chs, och, ov, ofn⟩ := s
  cases och <;> rfl

theorem stateCallers_flushChapter (s : BuilderState) :
    ∀ x ∈ stateCallers (flushChapter s), x ∈ stateCallers s := by
  intro x hx
  unfold flushChapter at hx
  rcases hE : flushVerse (closeFootnote s) with ⟨chs2, och2, ov2, ofn2⟩
  rw [hE] at hx
  have hsub : ∀ y ∈ stateCallers (⟨chs2, och2, ov2, ofn2⟩ : BuilderState),
      y ∈ stateCallers s := by
    intro y hy
    apply stateCallers_closeFootnote
    rw [← stateCallers_flushVerse (closeFootnote s), hE]
    exact hy
  cases och2 with
  | none => exact hsub x hx
  | some ch =>
    apply hsub
    have hx2 : x ∈ stateCallers
        (⟨chs2 ++ [⟨ch.number, ch.content, ch.footnotes⟩], none, ov2, ofn2⟩ : BuilderState) := hx
    revert hx2
    show _ → x ∈ stateCallers (⟨chs2, some ch, ov2, ofn2⟩ : BuilderState)
    simp only [stateCallers, footnoteCallers, List.flatMap_append, List.mem_append,
      List.flatMap_cons, List.flatMap_nil, List.append_nil]
    tauto

theorem stateCallers_step (s : BuilderState) (t : Token) :
    ∀ x ∈ stateCallers (step s t), x ∈ stateCallers s ∨ x ∈ tokCallers t := by
  cases t with
  | chapterTok n =>
    intro x hx
    left
    simp only [step] at hx
    rcases hE2 : flushChapter s with ⟨chs2, och2, ov2, ofn2⟩
    rw [hE2] at hx
    have hx2 : x ∈ stateCallers (⟨chs2, och2, ov2, ofn2⟩ : BuilderState) := by
      revert hx
      show x ∈ stateCallers (⟨chs2, some ⟨n, [], []⟩, ov2, ofn2⟩ : BuilderState) → _
      cases och2 <;>
        · simp only [stateCallers, footnoteCallers, List.map_nil, List.mem_append]
          tauto
    have := stateCallers_flushChapter s x
    rw [hE2] at this
    exact this hx2
  | verseTok n =>
    intro x hx
    left
    have hx2 : x ∈ stateCallers (flushVerse (ensureChapter s)) := hx
    rw [stateCallers_flushVerse, stateCallers_ensureChapter] at hx2
    exact hx2
  | headingTok txt =>
    intro x hx
    left
    obtain ⟨chs, och, ov, ofn⟩ := s
    cases och with
    | none => exact hx
    | some ch =>
      have hx2 : x ∈ stateCallers
          (appendContent (flushVerse ⟨chs, some ch, ov, ofn⟩)
            (ChapterContent.heading [txt])) := hx
      rw [stateCallers_appendContent, stateCallers_flushVerse] at hx2
      exact hx2
  | lineBreakTok =>
    intro x hx
    left
    obtain ⟨chs, och, ov, ofn⟩ := s
    cases och with
    | none => exact hx
    | some ch =>
      have hx2 : x ∈ stateCallers
          (appendContent (flushVerse ⟨chs, some ch, ov, ofn⟩)
            ChapterContent.lineBreak) := hx
      rw [stateCallers_appendContent, stateCallers_flushVerse] at hx2
      exact hx2
  | textTok txt =>
    intro x hx
    left
    obtain ⟨chs, och, ov, ofn⟩ := s
    cases ofn with
    | some f => exact hx
    | none =>
      cases ov with
      | some v => exact hx
      | none => exact hx
  | footnoteStartTok c =>
    intro x hx
    obtain ⟨chs, och, ov, ofn⟩ := s
    cases och with
    | none => exact Or.inl hx
    | some ch =>
      simp only [step] at hx
      rcases hE : closeFootnote (⟨chs, some ch, ov, ofn⟩ : BuilderState)
        with ⟨chs1, och1, ov1, ofn1⟩
      rw [hE] at hx
      have hofn1 : ofn1 = none := by
        have hcf := closeFootnote_footnote (⟨chs, some ch, ov, ofn⟩ : BuilderState)
        rw [hE] at hcf
        exact hcf
      subst hofn1
      have hsub : ∀ y ∈ stateCallers (⟨chs1, och1, ov1, none⟩ : BuilderState),
          y ∈ stateCallers ⟨chs, some ch, ov, ofn⟩ := by
        intro y hy
        apply stateCallers_closeFootnote
        rw [hE]
        exact hy
      cases och1 with
      | none => exact Or.inl (hsub x hx)
      | some ch1 =>
        cases ov1 with
        | some v =>
          have hx2 : x ∈ stateCallers (⟨chs1, some ch1, some v, none⟩ : BuilderState)
              ∨ x = c := by
            revert hx
            simp only [stateCallers, footnoteCallers, List.mem_append, List.mem_singleton,
              List.not_mem_nil, or_false]
            tauto
          rcases hx2 with hx2 | hx2
          · exact Or.inl (hsub x hx2)
          · right
            simp [tokCallers, hx2]
        | none =>
          have hx2 : x ∈ stateCallers (⟨chs1, some ch1, none, none⟩ : BuilderState)
              ∨ x = c := by
            revert hx
            simp only [stateCallers, footnoteCallers, List.mem_append, List.mem_singleton,
              List.not_mem_nil, or_false]
            tauto
          rcases hx2 with hx2 | hx2
          · exact Or.inl (hsub x hx2)
          · right
            simp [tokCallers, hx2]
  | footnoteEndTok =>
    intro x hx
    exact Or.inl (stateCallers_closeFootnote s x hx)

theorem stateCallers_runTokens (ts : List Token) :
    ∀ (s : BuilderState) (x : Option String), x ∈ stateCallers (runTokens s ts) →
      x ∈ stateCallers s ∨ ∃ t ∈ ts, x ∈ tokCallers t := by
  induction ts with
  | nil =>
    intro s x hx
    exact Or.inl hx
  | cons t ts ih =>
    intro s x hx
    rcases ih (step s t) x hx with hx2 | ⟨t2, ht2, hx2⟩
    · rcases stateCallers_step s t x hx2 with h3 | h3
      · exact Or.inl h3
      · exact Or.inr ⟨t, by simp, h3⟩
    · exact Or.inr ⟨t2, by simp [ht2], hx2⟩

/-- Every caller stored in a built chapter's footnote table was declared
on a footnote-open marker of the input token stream. -/
theorem buildChapters_caller_provenance (tokens : List Token) (c : ChapterData)
    (fn : ChapterFootnote) (hc : c ∈ buildChapters tokens) (hfn : fn ∈ c.footnotes) :
    Token.footnoteStartTok fn.caller ∈ tokens := by
  have hx : fn.caller ∈ stateCallers (flushChapter (runTokens initState tokens)) := by
    apply List.mem_append_left
    apply List.mem_append_left
    rw [List.mem_flatMap]
    exact ⟨c, hc, List.mem_map_of_mem _ hfn⟩
  have hx2 := stateCallers_flushChapter (runTokens initState tokens) fn.caller hx
  rcases stateCallers_runTokens tokens initState fn.caller hx2 with h1 | ⟨t2, ht2, h2⟩
  · simp [stateCallers, initState] at h1
  · cases t2 <;> simp [tokCallers] at h2
    rw [h2]
    exact ht2

/-- C8: every footnote the builder stores carries the caller declared on
its opening marker, which is exactly one of the three forms ("+" for an
auto-generated caller, null for no glyph, or a literal string used
verbatim); and rendering an auto caller is distinct from rendering no
caller or a verbatim literal caller. -/
theorem footnote_caller_forms_and_rendering :
    (∀ (tokens : List Token) (c : ChapterData) (fn : ChapterFootnote),
        c ∈ buildChapters tokens → fn ∈ c.footnotes →
        Token.footnoteStartTok fn.caller ∈ tokens
          ∧ (fn.caller = some "+" ∨ fn.caller = none
              ∨ ∃ s, fn.caller = some s ∧ ¬(s = "+")))
      ∧ (∀ (n : Nat) (s : String), ¬(s = "+") →
          renderCaller (some "+") n ≠ renderCaller none n
            ∧ renderCaller (some "+") n ≠ renderCaller (some s) n) := by
  constructor
  · intro tokens c fn hc hfn
    refine ⟨buildChapters_caller_provenance tokens c fn hc hfn, ?_⟩
    rcases fn.caller with _ | s
    · exact Or.inr (Or.inl rfl)
    · by_cases hs : s = "+"
      · subst hs
        exact Or.inl rfl
      · exact Or.inr (Or.inr ⟨s, rfl, hs⟩)
  · intro n s hs
    constructor
    · simp [renderCaller]
    · simp [renderCaller, hs]

/-- C8 witness: the auto-caller footnote built from `w8Tokens` stores
caller "+" coming from its opening token, and its rendering differs from
the no-glyph and verbatim renderings. -/
theorem footnote_caller_forms_and_rendering_witness :
    (Token.footnoteStartTok w8Footnote.caller ∈ w8Tokens
      ∧ (w8Footnote.caller = some "+" ∨ w8Footnote.caller = none
          ∨ ∃ s, w8Footnote.caller = some s ∧ ¬(s = "+")))
      ∧ (renderCaller (some "+") 0 ≠ renderCaller none 0
          ∧ renderCaller (some "+") 0 ≠ renderCaller (some "x") 0) :=
  ⟨footnote_caller_forms_and_rendering.1 w8Tokens w8Chapter w8Footnote
      (by decide) (by decide),
   footnote_caller_forms_and_rendering.2 0 "x" (by decide)⟩

end BibleApi
